import Mathlib

/-!
Verification of the CTD-TLP pairwise test-generation tool.

This file shallowly embeds the combinatorial coverage engine of the
repository (`basic2.py` and the `tool/` package) in Lean 4 and proves or
refutes the frozen specification claims about it.

Conventions of the embedding:
* Python values appearing in factor domains (JSON booleans / integers)
  become the tagged type `Val`; the Python `None` object, which can leak
  into rows built by the IPO generator over an empty domain, is `Val.none`.
* Python sets are modelled as duplicate-free lists; `set.remove` is
  `List.erase`, set comprehension is `List.filter`.
* The external nuXmv process is the environment: it is passed in as a
  function (from the command script to an outcome, or from a row/pair to
  a verdict), and functions that `raise` in Python return `Except`.
-/

namespace CTD

/-- A factor value as loaded from `settings.json`: a JSON boolean or
integer.  `Val.none` mirrors the Python `None` object (it occurs only in
rows produced by `generate_pairwise_twix` when a domain is empty). -/
inductive Val where
  | bool : Bool → Val
  | int : Int → Val
  | none : Val
deriving DecidableEq, Repr

/-- Is this value a JSON boolean? -/
def Val.isBool : Val → Bool
  | .bool _ => true
  | _ => false

/-- Is this value a JSON integer? -/
def Val.isInt : Val → Bool
  | .int _ => true
  | _ => false

/-- A CTD pair `((f1, v1), (f2, v2))` exactly as the Python tuples used
by `basic2.py` (ordered; `all_pairs` orients them by factor-list order). -/
abbrev Pp := (String × Val) × (String × Val)

/-- A row: Python dict `factor name -> value`, as an association list in
insertion order. -/
abbrev Row := List (String × Val)

/-- The decimal digit character of `d` (callers pass `d < 10`). -/
def digitChar : Nat → Char
  | 0 => '0'
  | 1 => '1'
  | 2 => '2'
  | 3 => '3'
  | 4 => '4'
  | 5 => '5'
  | 6 => '6'
  | 7 => '7'
  | 8 => '8'
  | _ => '9'

/-- Numeric value of a decimal digit character. -/
def digitVal (c : Char) : Nat := c.toNat - 48

/-- Decimal digits of a natural number, least significant last, written
with explicit fuel so that the definition is structural (and hence
evaluates inside the kernel); `fuel ≥ n` always suffices because the
argument is divided by ten at each step. -/
def natDigitsFuel : Nat → Nat → List Char
  | 0, n => [digitChar (n % 10)]
  | fuel + 1, n =>
    if n < 10 then [digitChar n]
    else natDigitsFuel fuel (n / 10) ++ [digitChar (n % 10)]

/-- Decimal digits of a natural number — the shallow embedding of
Python `str` on a non-negative integer. -/
def natDigits (n : Nat) : List Char := natDigitsFuel n n

/-- The number denoted by a decimal digit string (used to invert
`natDigits`). -/
def digitsVal (l : List Char) : Nat :=
  l.foldl (fun a c => 10 * a + digitVal c) 0

/-- Python `str` on an `int`: optional minus sign followed by digits. -/
def intDigits (i : Int) : List Char :=
  if i < 0 then '-' :: natDigits (-i).toNat else natDigits i.toNat

/-- The numeric encoding used by `filename_for_row` (basic2.py line 313)
and `_profile_name_from_row` (ipo_runner.py lines 330-335):
`1 if value is True else 0 if value is False else value`, rendered by the
f-string. -/
def encodeVal : Val → List Char
  | .bool true => ['1']
  | .bool false => ['0']
  | .int i => intDigits i
  | .none => ['N', 'o', 'n', 'e']

/-- Lexicographic comparison of character lists by code point —
Python's `<` on strings. -/
def strLtb : List Char → List Char → Bool
  | [], [] => false
  | [], _ :: _ => true
  | _ :: _, [] => false
  | a :: as, b :: bs =>
    if a.toNat < b.toNat then true
    else if b.toNat < a.toNat then false
    else strLtb as bs

/-- Python `s < t` on strings. -/
def strLt (s t : String) : Bool := strLtb s.data t.data

/-- Insert an entry into a list sorted by factor name (helper for the
Python `sorted(row.keys())` / `sorted(row.items())` calls; names are dict
keys, hence distinct, so comparing names only is faithful). -/
def insertByName (x : String × Val) : List (String × Val) → List (String × Val)
  | [] => [x]
  | y :: ys => if strLt x.1 y.1 then x :: y :: ys else y :: insertByName x ys

/-- Sort a row's entries by factor name. -/
def sortByName : List (String × Val) → List (String × Val)
  | [] => []
  | x :: xs => insertByName x (sortByName xs)

/-- `row_key` (basic2.py lines 318-319): `tuple(sorted(row.items()))`. -/
def row_key (row : Row) : List (String × Val) :=
  sortByName row

/-- The per-factor part of an artifact name: the factor name's first
character upper-cased, followed by the numeric encoding of the value
(`f"{letter}{num}"`). -/
def partOfEntry (e : String × Val) : List Char :=
  (e.1.data.take 1).map Char.toUpper ++ encodeVal e.2

/-- Join character chunks with the separator `'_'` (Python `"_".join`). -/
def joinUnderscore : List (List Char) → List Char
  | [] => []
  | [p] => p
  | p :: ps => p ++ '_' :: joinUnderscore ps

/-- The parts of an artifact name, one per factor in sorted name order. -/
def partsOfRow (row : Row) : List (List Char) :=
  (sortByName row).map partOfEntry

/-- `filename_for_row` (basic2.py lines 308-315). -/
def filename_for_row (row : Row) : String :=
  ⟨"run_".data ++ joinUnderscore (partsOfRow row) ++ ".txt".data⟩

/-- `_profile_name_from_row` (ipo_runner.py lines 323-338): the same
letter/number parts joined with underscores, without prefix/suffix. -/
def profile_name_from_row (row : Row) : String :=
  ⟨joinUnderscore (partsOfRow row)⟩

/-! ### String helpers (Python string methods, at character-list level) -/

/-- Python's whitespace class (`str.strip`, and `\s` in the `re` module):
space, tab, newline, carriage return, vertical tab, form feed. -/
def isPySpace (c : Char) : Bool :=
  c = ' ' || c = '\t' || c = '\n' || c = '\r' || c = '\x0b' || c = '\x0c'

/-- Strip characters satisfying `p` from both ends of a character list
(Python `str.strip`). -/
def stripChars (p : Char → Bool) (l : List Char) : List Char :=
  ((l.dropWhile p).reverse.dropWhile p).reverse

/-- Python `str.strip()` on a string. -/
def pyStrip (s : String) : String :=
  ⟨stripChars isPySpace s.data⟩

/-- Python `str.lower()` (the identifiers involved are ASCII). -/
def pyLower (s : String) : String :=
  ⟨s.data.map Char.toLower⟩

/-- Does `pat` occur as a contiguous substring of `l`?  (Python `in` on
strings.) -/
def substrIn (pat : List Char) : List Char → Bool
  | [] => pat.isPrefixOf []
  | c :: rest => pat.isPrefixOf (c :: rest) || substrIn pat rest

/-! ### `negate_ltl` (tool/oracle.py lines 10-16, tool/ipo_oracle.py lines 49-54) -/

/-- `negate_ltl`: strip the formula, return it unchanged if it already
starts with `!(` and ends with `)`, otherwise wrap it in `!( )`. -/
def negate_ltl (formula : String) : String :=
  let trimmed := pyStrip formula
  if "!(".data.isPrefixOf trimmed.data && ")".data.isSuffixOf trimmed.data then trimmed
  else "!(" ++ trimmed ++ ")"

/-- A fragment of the propositional skeleton of the LTL formulas the
tool manipulates, with a printer matching the concrete syntax sent to
nuXmv.  Used to give denotations to the strings `negate_ltl` handles. -/
inductive PForm where
  | atom : String → PForm
  | neg : PForm → PForm
  | conj : PForm → PForm → PForm

/-- Truth value of a skeleton formula under a valuation of its atoms. -/
def evalP (v : String → Bool) : PForm → Bool
  | .atom a => v a
  | .neg φ => !(evalP v φ)
  | .conj φ ψ => evalP v φ && evalP v ψ

/-- Concrete syntax of a skeleton formula: negation prints as `!(...)`,
conjunction as `_ & _`, as in the formulas built by the tool. -/
def printP : PForm → String
  | .atom a => a
  | .neg φ => "!(" ++ printP φ ++ ")"
  | .conj φ ψ => printP φ ++ " & " ++ printP ψ

/-- The conjunction `!(a) & !(b)`: a formula that is not a negation but
whose printed form starts with `!(` and ends with `)`. -/
def phiC6 : PForm := .conj (.neg (.atom "a")) (.neg (.atom "b"))

/-! ### Verdict-line parsing (basic2.py lines 14-19 and 250-267)

`SPEC_VERDICT_RE = ^\s*--\s*specification\b.*\bis\s+(true|false)\b`,
matched case-insensitively with `re.match` against each line; the code
keeps the verdict of the last matching line. -/

/-- A regex word character, `[A-Za-z0-9_]` (the verdict words are ASCII). -/
def isWordChar (c : Char) : Bool := c.isAlphanum || c = '_'

/-- Case-insensitive literal prefix match: `pat` is given lower-case;
returns the remainder of `l` after the matched literal. -/
def stripPrefixCI : List Char → List Char → Option (List Char)
  | [], l => some l
  | _ :: _, [] => none
  | p :: ps, c :: cs => if c.toLower = p then stripPrefixCI ps cs else none

/-- Word boundary after a matched word: end of line or a non-word char. -/
def boundaryAfter : List Char → Bool
  | [] => true
  | c :: _ => !isWordChar c

/-- Try to read `is\s+(true|false)\b` at the head of `l` (the `\b`
before `is` is checked by the caller). -/
def verdictAt (l : List Char) : Option Bool :=
  match stripPrefixCI "is".data l with
  | none => none
  | some rest =>
    if (rest.takeWhile isPySpace).isEmpty then none
    else
      let rest2 := rest.dropWhile isPySpace
      match stripPrefixCI "true".data rest2 with
      | some tail => if boundaryAfter tail then some true else none
      | none =>
        match stripPrefixCI "false".data rest2 with
        | some tail => if boundaryAfter tail then some false else none
        | none => none

/-- Scan `l` for occurrences of `\bis\s+(true|false)\b` and keep the
last one (the greedy `.*` in the regex makes the final occurrence the
captured group).  `prevIsWord` tells whether the character immediately
before `l` is a word character (governs the `\b` before `is`). -/
def lastVerdictIn : Bool → List Char → Option Bool → Option Bool
  | _, [], acc => acc
  | prevW, c :: cs, acc =>
    let acc' :=
      if prevW then acc
      else
        match verdictAt (c :: cs) with
        | some v => some v
        | none => acc
    lastVerdictIn (isWordChar c) cs acc'

/-- Match one output line against `SPEC_VERDICT_RE`; `some b` is the
captured verdict (`true`/`false`), `none` means no match. -/
def matchVerdictLine (line : List Char) : Option Bool :=
  match line.dropWhile isPySpace with
  | '-' :: '-' :: rest =>
    match stripPrefixCI "specification".data (rest.dropWhile isPySpace) with
    | none => none
    | some tail =>
      if boundaryAfter tail then lastVerdictIn true tail none else none
  | _ => none

/-- Python `str.splitlines` restricted to the `\n` / `\r` / `\r\n`
separators (the ones subprocess text mode can produce): no trailing
empty line, and the empty string has no lines. -/
def pySplitlines : List Char → List (List Char)
  | [] => []
  | '\n' :: cs => [] :: pySplitlines cs
  | '\r' :: '\n' :: cs => [] :: pySplitlines cs
  | '\r' :: cs => [] :: pySplitlines cs
  | c :: cs =>
    match pySplitlines cs with
    | [] => [[c]]
    | ln :: rest => (c :: ln) :: rest

/-- The verdict scan of `run_nuxmv` (basic2.py lines 252-257): iterate
over the lines of the combined output, remembering the verdict of the
last line that matches the regex. -/
def nuxmvVerdict (out : String) : Option Bool :=
  (pySplitlines out.data).foldl
    (fun acc line =>
      match matchVerdictLine line with
      | some v => some v
      | none => acc)
    none

/-! ### `run_nuxmv` (basic2.py lines 220-273) and its callers -/

/-- Outcome of one synchronous verifier subprocess invocation: either it
exceeded the timeout bound (`subprocess.TimeoutExpired`) or it finished
with captured stdout and stderr. -/
inductive ProcResult where
  | timeout : ProcResult
  | finished (stdout stderr : String) : ProcResult

/-- The distinct exceptions `run_nuxmv` and its helpers raise:
`ValueError` from `assert_balanced_parentheses`, the timeout
`RuntimeError` of lines 245-248, and the no-verdict `RuntimeError` of
lines 264-267. -/
inductive OracleError where
  | unbalanced (phi : String)
  | timeout (phi : String)
  | protocol (out : String)
deriving DecidableEq, Repr

deriving instance DecidableEq for Except

/-- `assert_balanced_parentheses` (basic2.py lines 85-95) as a predicate:
`false` exactly when the Python function raises. -/
def balancedAux : Int → List Char → Bool
  | bal, [] => bal = 0
  | bal, c :: cs =>
    if c = '(' then balancedAux (bal + 1) cs
    else if c = ')' then
      if bal - 1 < 0 then false else balancedAux (bal - 1) cs
    else balancedAux bal cs

/-- Parenthesis balance check of a formula string. -/
def checkBalanced (s : String) : Bool := balancedAux 0 s.data

/-- The command script `run_nuxmv` writes for the verifier (basic2.py
lines 223-230); note the hard-coded negation `!( phi )`. -/
def nuxmvScript (model phi : String) : String :=
  "read_model -i " ++ model ++ "\n" ++
  "go\n" ++
  "check_ltlspec -p \"!( " ++ phi ++ " )\"\n" ++
  "show_traces -v\n" ++
  "quit\n"

/-- `run_nuxmv`: validate parentheses, run the verifier on the negation
script (`exec` is the external subprocess environment, applied to the
command script; a `timeout` outcome models `subprocess.TimeoutExpired`),
then classify the combined `stdout + "\n" + stderr` by the last matching
verdict line.  Returns the `(status, raw output)` pair of the source or
the distinct error the source raises. -/
def run_nuxmv (exec : String → ProcResult) (model phi : String) :
    Except OracleError (String × String) :=
  if checkBalanced phi then
    match exec (nuxmvScript model phi) with
    | .timeout => .error (.timeout phi)
    | .finished so se =>
      let out := so ++ "\n" ++ se
      match nuxmvVerdict out with
      | some false => .ok ("FEASIBLE", out)
      | some true => .ok ("INFEASIBLE", out)
      | none => .error (.protocol out)
  else .error (.unbalanced phi)

/-- A factor as produced by `load_cfg` (basic2.py lines 98-157): its
name, its ordered domain, and the LTL predicate of each value. -/
structure Factor where
  name : String
  values : List Val
  value_ltls : List (Val × String)

/-- The configuration dictionary returned by `load_cfg`: factors in
declaration order, the optional end-of-test flag (`cfg["end"]`), the
step variable, and the global test rule. -/
structure Cfg where
  factors : List Factor
  endFlag : Option String
  step_var : String
  test_rule : String

/-- Python `str.replace` (all occurrences, left to right; the patterns
used are non-empty).  Fuel-structured: each step consumes at least one
character, so `fuel = length of the list` suffices. -/
def replaceAllFuel (pat sub : List Char) : Nat → List Char → List Char
  | 0, l => l
  | _ + 1, [] => []
  | fuel + 1, c :: rest =>
    if pat ≠ [] && pat.isPrefixOf (c :: rest) then
      sub ++ replaceAllFuel pat sub fuel ((c :: rest).drop pat.length)
    else
      c :: replaceAllFuel pat sub fuel rest

/-- Python `str.replace` at character-list level. -/
def replaceAll (pat sub l : List Char) : List Char :=
  replaceAllFuel pat sub l.length l

/-- Python `str.replace` on strings. -/
def pyReplace (s pat sub : String) : String :=
  ⟨replaceAll pat.data sub.data s.data⟩

/-- Python `sep.join(parts)`. -/
def joinSep (sep : String) : List String → String
  | [] => ""
  | [s] => s
  | s :: rest => s ++ sep ++ joinSep sep rest

/-- `end_domain_guard` (basic2.py lines 171-172): currently `TRUE`. -/
def end_domain_guard (_cfg : Cfg) : String := "TRUE"

/-- `phi_for_value` (basic2.py lines 174-176): the declared per-value
LTL predicate (total on the loaded configuration; a missing entry, a
`KeyError` in Python, is rendered as the empty string). -/
def phi_for_value (cfg : Cfg) (f : String) (v : Val) : String :=
  match cfg.factors.find? (fun fac => fac.name = f) with
  | some fac => (fac.value_ltls.lookup v).getD ""
  | none => ""

/-- The `test_rule` with `end_flag` substituted when an end flag is
configured (basic2.py lines 184-188 and 209-213). -/
def effective_test_rule (cfg : Cfg) : String :=
  match cfg.endFlag with
  | some e => pyReplace cfg.test_rule "end_flag" e
  | none => cfg.test_rule

/-- `phi_for_row` (basic2.py lines 178-197). -/
def phi_for_row (row : Row) (cfg : Cfg) : String :=
  let parts := row.map (fun nv => "(" ++ phi_for_value cfg nv.1 nv.2 ++ ")")
  let core := if parts.isEmpty then "TRUE" else joinSep " & " parts
  "((" ++ effective_test_rule cfg ++ ") & (" ++ end_domain_guard cfg ++ ") & (" ++
    core ++ "))"

/-- `phi_for_pair` (basic2.py lines 199-216). -/
def phi_for_pair (pair : Pp) (cfg : Cfg) : String :=
  let phi1 := phi_for_value cfg pair.1.1 pair.1.2
  let phi2 := phi_for_value cfg pair.2.1 pair.2.2
  "((" ++ effective_test_rule cfg ++ ") & ((" ++ phi1 ++ ") & (" ++ phi2 ++ ")))"

/-- `test_row` (basic2.py lines 403-418): full-row feasibility query. -/
def test_row (exec : String → ProcResult) (row : Row) (cfg : Cfg) (model : String) :
    Except OracleError (Bool × String) :=
  match run_nuxmv exec model (phi_for_row row cfg) with
  | .error e => .error e
  | .ok (status, out) =>
    if status = "FEASIBLE" then .ok (true, out)
    else if status = "INFEASIBLE" then .ok (false, out)
    else .error (.protocol out)

/-- `pair_is_feasible` (basic2.py lines 420-427): pair-only feasibility
query. -/
def pair_is_feasible (exec : String → ProcResult) (pair : Pp) (cfg : Cfg)
    (model : String) : Except OracleError Bool :=
  match run_nuxmv exec model (phi_for_pair pair cfg) with
  | .error e => .error e
  | .ok (status, _) => .ok (status = "FEASIBLE")

/-- The feasibility determination shared by `classify_row_with_nuxmv`
(tool/ipo_oracle.py lines 183-191, tool/oracle.py lines 166-175) and
`classify_partial_with_nuxmv` (lines 242-249): substring tests on
`stdout + "\n" + stderr`, with an explicit fallback to infeasible
(`feasible = False`) when neither verdict substring occurs. -/
def ipo_classify_feasible (stdout stderr : String) : Bool :=
  if substrIn " is false".data (stdout ++ "\n" ++ stderr).data then true
  else if substrIn " is true".data (stdout ++ "\n" ++ stderr).data then false
  else false

/-! ### Trace parsing (basic2.py lines 14-15, 21-83 and 275-305) -/

/-- `STATE_RE = ^\s*->\s*State:` as a prefix match on one line. -/
def isStateLine (l : List Char) : Bool :=
  match l.dropWhile isPySpace with
  | '-' :: '>' :: rest => "State:".data.isPrefixOf (rest.dropWhile isPySpace)
  | _ => false

/-- `ASSIGN_RE = ^\s*([A-Za-z0-9_]+)\s*=\s*(.+?)\s*$`: an identifier,
`=`, and a non-empty remainder; both sides are returned stripped (the
callers store `m.group(2).strip()`). -/
def assignMatch (l : List Char) : Option (String × String) :=
  let l1 := l.dropWhile isPySpace
  let var := l1.takeWhile isWordChar
  if var.isEmpty then none
  else
    match (l1.dropWhile isWordChar).dropWhile isPySpace with
    | '=' :: tail =>
      if tail.isEmpty then none
      else some (⟨var⟩, ⟨stripChars isPySpace tail⟩)
    | _ => none

/-- The trace-boundary marker both parsers stop at:
`"<!-- ################### Trace number:" in line`. -/
def isTraceBoundary (l : List Char) : Bool :=
  substrIn "<!-- ################### Trace number:".data l

/-- Normalisation of a step value:
`val.strip().strip('"').lower()`. -/
def normStep (v : String) : String :=
  ⟨(stripChars (fun c => c = '"') (stripChars isPySpace v.data)).map Char.toLower⟩

/-- Replace the binding of `k` (all its occurrences; keys are unique)
or append it — Python `dict.__setitem__`. -/
def upsert (m : List (String × String)) (k v : String) : List (String × String) :=
  if (m.lookup k).isSome then m.map (fun kv => if kv.1 = k then (k, v) else kv)
  else m ++ [(k, v)]

/-- Python `current.update(pending)`. -/
def updateAll (cur pend : List (String × String)) : List (String × String) :=
  pend.foldl (fun m kv => upsert m kv.1 kv.2) cur

/-- Loop state of `extract_steps`: collected steps, the merged
`current` assignment, and the `pending` assignments of the state being
read (`none` before the first state-delimiter line). -/
structure ESState where
  steps : List String
  current : List (String × String)
  pending : Option (List (String × String))

/-- The step-recording of `extract_steps` (basic2.py lines 290-292 and
302-304): if the step variable is bound in the merged state, append its
normalised value — unconditionally, with no sentinel filtering. -/
def appendStepRaw (stepVar : String) (cur : List (String × String))
    (steps : List String) : List String :=
  match cur.lookup stepVar with
  | some v => steps ++ [normStep v]
  | none => steps

/-- The line loop of `extract_steps` (basic2.py lines 282-298). -/
def extract_steps_loop (stepVar : String) : List (List Char) → ESState → ESState
  | [], st => st
  | ln :: rest, st =>
    if isTraceBoundary ln then st
    else if isStateLine ln then
      match st.pending with
      | some pend =>
        let cur := updateAll st.current pend
        extract_steps_loop stepVar rest
          { steps := appendStepRaw stepVar cur st.steps, current := cur, pending := some [] }
      | none => extract_steps_loop stepVar rest { st with pending := some [] }
    else
      match assignMatch ln with
      | some kv =>
        match st.pending with
        | some pend =>
          extract_steps_loop stepVar rest { st with pending := some (upsert pend kv.1 kv.2) }
        | none => extract_steps_loop stepVar rest st
      | none => extract_steps_loop stepVar rest st

/-- `extract_steps` (basic2.py lines 275-305): run the line loop, then
finalise the trailing pending state the same way. -/
def extract_steps (stdout : String) (cfg : Cfg) : List String :=
  let st := extract_steps_loop cfg.step_var (pySplitlines stdout.data) ⟨[], [], none⟩
  match st.pending with
  | some pend => appendStepRaw cfg.step_var (updateAll st.current pend) st.steps
  | none => st.steps

/-- Loop state of `trace_to_test_line`: like `ESState` plus the
end-of-test flag. -/
structure TLState where
  actions : List String
  current : List (String × String)
  pending : Option (List (String × String))
  endReached : Bool

/-- The end-of-test check of `trace_to_test_line` (basic2.py lines
55-59): flag configured, present in the state, and normalising to
`true` or `1`. -/
def end_is_true (cur : List (String × String)) (endFlag : Option String) : Bool :=
  match endFlag with
  | none => false
  | some e =>
    if e.isEmpty then false
    else
      match cur.lookup e with
      | some v =>
        let s := pyLower (pyStrip v)
        s = "true" || s = "1"
      | none => false

/-- The step-recording of `trace_to_test_line` (basic2.py lines 48-52
and 72-76): append the normalised step value unless it equals the
sentinel `"idle"`. -/
def appendStepFiltered (stepVar : String) (cur : List (String × String))
    (actions : List String) : List String :=
  match cur.lookup stepVar with
  | some v =>
    if normStep v ≠ "idle" then actions ++ [normStep v] else actions
  | none => actions

/-- The line loop of `trace_to_test_line` (basic2.py lines 38-68): as
`extract_steps`, but with the sentinel filter, and the loop breaks once
the end-of-test flag holds. -/
def trace_loop (stepVar : String) (endFlag : Option String) :
    List (List Char) → TLState → TLState
  | [], st => st
  | ln :: rest, st =>
    if isTraceBoundary ln then st
    else if isStateLine ln then
      match st.pending with
      | some pend =>
        let cur := updateAll st.current pend
        let acts := appendStepFiltered stepVar cur st.actions
        if end_is_true cur endFlag then
          { actions := acts, current := cur, pending := st.pending, endReached := true }
        else
          trace_loop stepVar endFlag rest
            { actions := acts, current := cur, pending := some [], endReached := false }
      | none => trace_loop stepVar endFlag rest { st with pending := some [] }
    else
      match assignMatch ln with
      | some kv =>
        match st.pending with
        | some pend =>
          trace_loop stepVar endFlag rest { st with pending := some (upsert pend kv.1 kv.2) }
        | none => trace_loop stepVar endFlag rest st
      | none => trace_loop stepVar endFlag rest st

/-- The ordered action list built by `trace_to_test_line` (basic2.py
lines 21-83), before joining: loop over the lines, then finalise the
trailing pending state unless the end flag was reached. -/
def trace_actions (stdout : String) (cfg : Cfg) : List String :=
  let st := trace_loop cfg.step_var cfg.endFlag (pySplitlines stdout.data) ⟨[], [], none, false⟩
  if st.endReached then st.actions
  else
    match st.pending with
    | some pend => appendStepFiltered cfg.step_var (updateAll st.current pend) st.actions
    | none => st.actions

/-- `trace_to_test_line`: the comma-joined action list. -/
def trace_to_test_line (stdout : String) (cfg : Cfg) : String :=
  joinSep "," (trace_actions stdout cfg)

/-- A trivial loaded configuration (no factors, no end flag) used to
instantiate theorems about the oracle gateway. -/
def cfg0 : Cfg :=
  { factors := [], endFlag := none, step_var := "step", test_rule := "TRUE" }

/-! ### Coverage engine (basic2.py lines 160-168 and 428-580)

Python sets become duplicate-free lists; `set.add` is `addPp`,
`set.remove` is `List.erase`, set difference and the per-row retirement
loops are `List.filter`.  The external oracle is abstracted into the
two functions `ro` (row verdict and raw trace, `test_row`) and `po`
(pair verdict, `pair_is_feasible`); gen_tests drives them exactly as
the source does and additionally logs every oracle query and artifact
write so that the claims about querying behaviour are statable. -/

/-- Remove duplicates from a list (builds a Python `set`). -/
def dedupList {α : Type} [DecidableEq α] : List α → List α
  | [] => []
  | x :: xs =>
    let r := dedupList xs
    if x ∈ r then r else x :: r

/-- Python `set.add` for pair sets. -/
def addPp (l : List Pp) (p : Pp) : List Pp :=
  if p ∈ l then l else l ++ [p]

/-- Ordered pairs of names, `combinations(names, 2)` in list order. -/
def namePairs : List String → List (String × String)
  | [] => []
  | n :: rest => rest.map (fun m => (n, m)) ++ namePairs rest

/-- Insert a string into a sorted list (for Python `sorted`). -/
def insertStr (x : String) : List String → List String
  | [] => [x]
  | y :: ys => if strLt x y then x :: y :: ys else y :: insertStr x ys

/-- Python `sorted` on a list of strings. -/
def sortStrings : List String → List String
  | [] => []
  | x :: xs => insertStr x (sortStrings xs)

/-- The declared domain of a factor (`cfg["factors"][n]["values"]`). -/
def domOf (facs : List Factor) (n : String) : List Val :=
  match facs.find? (fun f => f.name = n) with
  | some f => f.values
  | none => []

/-- `all_pairs` (basic2.py lines 161-168): the full pair universe, a
Python set, with factor names iterated in declaration order. -/
def all_pairs (facs : List Factor) : List Pp :=
  dedupList
    ((namePairs (facs.map Factor.name)).flatMap (fun fp =>
      (domOf facs fp.1).flatMap (fun v1 =>
        (domOf facs fp.2).map (fun v2 => ((fp.1, v1), (fp.2, v2))))))

/-- `row_satisfies` (basic2.py lines 430-432): `row.get(f1) == v1 and
row.get(f2) == v2`. -/
def row_satisfies (row : Row) (p : Pp) : Bool :=
  row.lookup p.1.1 == some p.1.2 && row.lookup p.2.1 == some p.2.2

/-- `pairs_covered_by_row` (basic2.py lines 434-435). -/
def pairs_covered_by_row (row : Row) (ps : List Pp) : List Pp :=
  ps.filter (fun p => row_satisfies row p)

/-- The fill loop of `build_row_from_pair` (basic2.py lines 475-478):
factors in declaration order, each missing one taking the first value
of its domain (`none` on an empty domain, where Python would raise
`IndexError`). -/
def buildRowAux : List Factor → Row → Option Row
  | [], row => some row
  | f :: rest, row =>
    if (row.lookup f.name).isSome then buildRowAux rest row
    else
      match f.values with
      | [] => none
      | v :: _ => buildRowAux rest (row ++ [(f.name, v)])

/-- `build_row_from_pair` (basic2.py lines 468-479). -/
def build_row_from_pair (pair : Pp) (facs : List Factor) : Option Row :=
  buildRowAux facs [pair.1, pair.2]

/-- The gain of one candidate test: `cset & remaining` (basic2.py line
453), computed on the duplicate-free `remaining`. -/
def gainAt (remaining cset : List Pp) : List Pp :=
  remaining.filter (fun p => p ∈ cset)

/-- The inner candidate scan of `minimize_tests_greedy` (basic2.py
lines 447-456): first index, among those not yet used, whose gain
strictly exceeds the best so far. -/
def bestScan (remaining : List Pp) (used : List Nat) :
    List (List Pp) → Nat → Option Nat × List Pp → Option Nat × List Pp
  | [], _, acc => acc
  | cset :: rest, i, acc =>
    if i ∈ used then bestScan remaining used rest (i + 1) acc
    else
      let gain := gainAt remaining cset
      if gain.length > acc.2.length then bestScan remaining used rest (i + 1) (some i, gain)
      else bestScan remaining used rest (i + 1) acc

/-- State of the greedy selection loop. -/
structure MinState where
  remaining : List Pp
  used : List Nat
  chosen : List Row

/-- The greedy selection loop of `minimize_tests_greedy` (basic2.py
lines 445-464), fuelled: every continuing iteration strictly shrinks
`remaining`, so `|remaining| + 1` steps always reach the loop's own
exits. -/
def minimize_loop (cov : List (List Pp)) (tests : List Row) :
    Nat → MinState → MinState
  | 0, st => st
  | fuel + 1, st =>
    if st.remaining.isEmpty then st
    else
      match bestScan st.remaining st.used cov 0 (none, []) with
      | (none, _) => st
      | (some i, gain) =>
        minimize_loop cov tests fuel
          { remaining := st.remaining.filter (fun p => p ∉ gain),
            used := st.used ++ [i],
            chosen := st.chosen ++ [tests.getD i []] }

/-- `minimize_tests_greedy` (basic2.py lines 437-466). -/
def minimize_tests_greedy (tests : List Row) (feasible_pairs : List Pp) : List Row :=
  let remaining := dedupList feasible_pairs
  let cov := tests.map (fun t => pairs_covered_by_row t remaining)
  (minimize_loop cov tests (remaining.length + 1) ⟨remaining, [], []⟩).chosen

/-- The pairs appearing in a full row (basic2.py lines 513-520):
factor names sorted, positions `i < j`.  Rows reaching this point are
total over the factors, so the `getD` default never fires (Python would
raise `KeyError`). -/
def row_pairs (facs : List Factor) (row : Row) : List Pp :=
  (namePairs (sortStrings (facs.map Factor.name))).map (fun fp =>
    ((fp.1, (row.lookup fp.1).getD Val.none), (fp.2, (row.lookup fp.2).getD Val.none)))

/-- Result of the infeasibility diagnosis fold. -/
structure DiagResult where
  todo : List Pp
  infeasible : List Pp
  found : Bool
  queries : List Pp
deriving DecidableEq

/-- The infeasibility diagnosis of `gen_tests` (basic2.py lines
522-530): for every pair of the row still in `todo`, query the pair
oracle; each pair found infeasible is added to `infeasible_pairs` and
removed from `todo` (`found` mirrors `any_pair_infeasible`). -/
def diagnose (po : Pp → Bool) : List Pp → List Pp → List Pp → List Pp → Bool → DiagResult
  | [], todo, inf, qs, found => ⟨todo, inf, found, qs⟩
  | p :: rest, todo, inf, qs, found =>
    if p ∈ todo then
      if po p then diagnose po rest todo inf (qs ++ [p]) found
      else diagnose po rest (todo.erase p) (addPp inf p) (qs ++ [p]) true
    else diagnose po rest todo inf qs found

/-- State of one `gen_tests` run, with instrumentation: the rows sent
to the row oracle (`test_row` calls), the pairs sent to the pair oracle
(`pair_is_feasible` calls), and the artifact files written by
`save_steps`. -/
structure GenState where
  todo : List Pp
  tests : List Row
  infeasible_pairs : List Pp
  infeasible_rows : List Row
  seen_rows : List Row
  row_to_line : List (Row × String)
  rowQueries : List Row
  pairQueries : List Pp
  artifacts : List String
deriving DecidableEq

/-- One iteration of the `while todo` loop of `gen_tests` (basic2.py
lines 499-568), for a given picked pair (`random.choice(tuple(todo))`
is the environment: any pair of `todo`).  Returns `none` when the pick
is not in `todo` or a factor domain is empty (Python `IndexError`). -/
def genStep (cfg : Cfg) (ro : Row → Bool × String) (po : Pp → Bool) (pick : Pp)
    (st : GenState) : Option GenState :=
  if pick ∈ st.todo then
    match build_row_from_pair pick cfg.factors with
    | none => none
    | some row =>
      let k := row_key row
      if k ∈ st.infeasible_rows then
        some { st with todo := st.todo.erase pick }
      else
        let st := { st with rowQueries := st.rowQueries ++ [row] }
        if (ro row).1 = false then
          let d := diagnose po (row_pairs cfg.factors row) st.todo st.infeasible_pairs
            st.pairQueries false
          if d.found then
            some { st with todo := d.todo, infeasible_pairs := d.infeasible,
                           pairQueries := d.queries }
          else
            some { st with todo := d.todo, infeasible_pairs := d.infeasible,
                           pairQueries := d.queries,
                           infeasible_rows := st.infeasible_rows ++ [k] }
        else
          if k ∈ st.seen_rows then
            some { st with todo := st.todo.filter (fun p => !(row_satisfies row p)) }
          else
            let line := trace_to_test_line (ro row).2 cfg
            some { st with
              seen_rows := st.seen_rows ++ [k],
              tests := st.tests ++ [row],
              artifacts :=
                if extract_steps (ro row).2 cfg ≠ [] then
                  st.artifacts ++ [filename_for_row row]
                else st.artifacts,
              row_to_line :=
                if line ≠ "" then st.row_to_line ++ [(k, line)] else st.row_to_line,
              todo := st.todo.filter (fun p => !(row_satisfies row p)) }
  else none

/-- The `while todo` loop of `gen_tests`, fed the sequence of random
pair picks; `none` when the pick sequence is invalid or too short. -/
def genLoop (cfg : Cfg) (ro : Row → Bool × String) (po : Pp → Bool) :
    List Pp → GenState → Option GenState
  | [], st => if st.todo.isEmpty then some st else none
  | pick :: picks, st =>
    if st.todo.isEmpty then some st
    else
      match genStep cfg ro po pick st with
      | some st' => genLoop cfg ro po picks st'
      | none => none

/-- What `gen_tests` returns (basic2.py line 580), plus the final
instrumented state. -/
structure GenResult where
  tests : List Row
  infeasible_pairs : List Pp
  pairs : List Pp
  final : GenState
deriving DecidableEq

/-- `gen_tests` (basic2.py lines 486-580): initialise the coverage
state from the configuration, run the discovery loop, then minimize
over the feasible pairs (`pairs - infeasible_pairs`).  The on-disk
suite/pruning writes of lines 574-577 are plain I/O on the returned
data and are not modelled. -/
def gen_tests (cfg : Cfg) (ro : Row → Bool × String) (po : Pp → Bool)
    (picks : List Pp) : Option GenResult :=
  let pairs := all_pairs cfg.factors
  match genLoop cfg ro po picks ⟨pairs, [], [], [], [], [], [], [], []⟩ with
  | some st =>
    let feasible := pairs.filter (fun p => p ∉ st.infeasible_pairs)
    some { tests := minimize_tests_greedy st.tests feasible,
           infeasible_pairs := st.infeasible_pairs,
           pairs := pairs,
           final := st }
  | none => none

/-! ### The IPO runner's diagnosis
(`_find_one_infeasible_pair_in_row`, tool/ipo_runner.py lines 21-95)

IPO pairs are Python frozensets of two `(name, value)` entries; since
factor names are distinct they are modelled canonically as `Pp` with
the lexicographically smaller name first (the orientation
`_pairs_for_row` produces).  The runner sorts the row's pairs with
`sorted(pairs_in_row, key=lambda x: sorted(list(x)))`, i.e. by the
`(name, value)` entries, where Python compares `True`/`False` as
`1`/`0`. -/

/-- Python's ordering key for a factor value (`True == 1`,
`False == 0`; values in pairs are booleans or integers). -/
def pyValOrd : Val → Int
  | .bool b => if b then 1 else 0
  | .int i => i
  | .none => 0

/-- Python `<` on `(name, value)` tuples. -/
def entryLtb (a b : String × Val) : Bool :=
  if strLt a.1 b.1 then true
  else if strLt b.1 a.1 then false
  else decide (pyValOrd a.2 < pyValOrd b.2)

/-- Python `<` on sorted two-entry lists (the frozenset sort keys). -/
def ppLtb (p q : Pp) : Bool :=
  if entryLtb p.1 q.1 then true
  else if entryLtb q.1 p.1 then false
  else entryLtb p.2 q.2

/-- Insertion into a sorted pair list. -/
def insertPpSorted (x : Pp) : List Pp → List Pp
  | [] => [x]
  | y :: ys => if ppLtb x y then x :: y :: ys else y :: insertPpSorted x ys

/-- `sorted` over the pairs of a row. -/
def sortPps : List Pp → List Pp
  | [] => []
  | x :: xs => insertPpSorted x (sortPps xs)

/-- Result of a successful `_find_one_infeasible_pair_in_row`: the
found pair, the updated `infeasible_pairs` and `feasible_pairs`, and
the pairs sent to the oracle. -/
structure FindOneResult where
  pair : Pp
  infeasible : List Pp
  feasible : List Pp
  queries : List Pp
deriving DecidableEq

/-- The scan of `_find_one_infeasible_pair_in_row` (ipo_runner.py lines
48-95): walk the sorted pairs; return the first already-known or newly
proven infeasible pair, skipping covered and known-feasible ones, and
raise when no pair is individually infeasible. -/
def findOneAux (po : Pp → Bool) (covered : List Pp) :
    List Pp → List Pp → List Pp → List Pp → Except String FindOneResult
  | [], _inf, _feas, _qs =>
    .error "Infeasible row but no infeasible pair found: model likely contains higher-order constraints beyond pairwise."
  | p :: rest, inf, feas, qs =>
    if p ∈ inf then .ok ⟨p, inf, feas, qs⟩
    else if p ∈ covered then findOneAux po covered rest inf feas qs
    else if p ∈ feas then findOneAux po covered rest inf feas qs
    else if po p then findOneAux po covered rest inf (feas ++ [p]) (qs ++ [p])
    else .ok ⟨p, inf ++ [p], feas, qs ++ [p]⟩

/-- `_find_one_infeasible_pair_in_row` (ipo_runner.py lines 21-95). -/
def find_one_infeasible_pair_in_row (po : Pp → Bool) (pairs_in_row : List Pp)
    (infeasible feasible covered : List Pp) : Except String FindOneResult :=
  findOneAux po covered (sortPps pairs_in_row) infeasible feasible []

/-! ### The twix pairwise generator (tool/generator.py lines 102-201)
and the IPO runner (tool/ipo_runner.py lines 13-19 and 97-320) -/

/-- `_pairs_for_row` (generator.py lines 114-126): all 2-way pairs of a
row, names sorted — the canonical representation of the Python
frozensets (the smaller factor name first). -/
def pairs_for_row (row : Row) : List Pp :=
  (namePairs (sortStrings (row.map Prod.fst))).map (fun fp =>
    ((fp.1, (row.lookup fp.1).getD Val.none), (fp.2, (row.lookup fp.2).getD Val.none)))

/-- Python `covered_pairs |= pairs` (set union). -/
def unionPp (l ps : List Pp) : List Pp :=
  ps.foldl addPp l

/-- The canonical form of `frozenset({a, b})` for two factor entries
with distinct names. -/
def canonPp (a b : String × Val) : Pp :=
  if strLt a.1 b.1 then (a, b) else (b, a)

/-- The best-C scan of twix phase 1 (generator.py lines 155-165):
`best_gain` starts at `-1`, so with a non-empty domain some value is
always chosen (first wins ties); on an empty domain the result is
`none` — Python's `None`. -/
def chooseBestC (A B C : String) (a b : Val) (cvals : List Val) (covered : List Pp) :
    Option Val :=
  (cvals.foldl (fun (best : Option Val × Int) c =>
    let row : Row := [(A, a), (B, b), (C, c)]
    let gain : Int := ((pairs_for_row row).filter (fun p => p ∉ covered)).length
    if gain > best.2 then (some c, gain) else best) (none, -1)).1

/-- Phase 1 of `generate_pairwise_twix` (generator.py lines 152-169):
stream over all (A,B) combinations, choosing the best C value. -/
def twixPhase1 (A B C : String) (doms : String → List Val) : List Row × List Pp :=
  (doms A).foldl (fun acc1 a =>
    (doms B).foldl (fun (acc : List Row × List Pp) b =>
      let bc := chooseBestC A B C a b (doms C) acc.2
      let row : Row := [(A, a), (B, b), (C, bc.getD Val.none)]
      (acc.1 ++ [row], unionPp acc.2 (pairs_for_row row))) acc1) ([], [])

/-- The rows of `product(*[doms[n] for n in names])`. -/
def allRowsProduct (doms : String → List Val) : List String → List Row
  | [] => [[]]
  | n :: rest =>
    (doms n).flatMap (fun v => (allRowsProduct doms rest).map (fun r => (n, v) :: r))

/-- The full required 2-way pair set (generator.py lines 172-176;
also `_all_pairs` of ipo_runner.py lines 13-19). -/
def twixAllPairs (doms : String → List Val) (names : List String) : List Pp :=
  (allRowsProduct doms names).foldl (fun acc r => unionPp acc (pairs_for_row r)) []

/-- The greedy candidate scan of twix phase 2 (generator.py lines
183-191): `best_gain` starts at 0, so only a strictly positive gain
selects a row. -/
def twixBestRow (doms : String → List Val) (names : List String) (uncovered : List Pp) :
    Option Row :=
  ((allRowsProduct doms names).foldl (fun (best : Option Row × Nat) cand =>
    let gain := ((pairs_for_row cand).filter (fun p => p ∈ uncovered)).length
    if gain > best.2 then (some cand, gain) else best) (none, 0)).1

/-- Phase 2 of `generate_pairwise_twix` (generator.py lines 178-199),
fuelled: each continuing iteration covers at least one uncovered pair,
so `|all pairs| + 1` steps always reach one of the loop's own exits
(`none` = fuel ran out, proved unreachable). -/
def twixPhase2 (doms : String → List Val) (names : List String) (allP : List Pp) :
    Nat → List Row → List Pp → Option (List Row)
  | 0, _, _ => none
  | fuel + 1, rows, covered =>
    let uncovered := allP.filter (fun p => p ∉ covered)
    if uncovered.isEmpty then some rows
    else
      match twixBestRow doms names uncovered with
      | none => some rows
      | some best =>
        twixPhase2 doms names allP fuel (rows ++ [best])
          (unionPp covered (pairs_for_row best))

/-- `generate_pairwise_twix` (generator.py lines 129-201); the
`ValueError` of line 145 is the `.error`. -/
def generate_pairwise_twix (facs : List Factor) : Except String (List Row) :=
  match facs.map Factor.name with
  | [A, B, C] =>
    let doms := domOf facs
    let p1 := twixPhase1 A B C doms
    let allP := twixAllPairs doms [A, B, C]
    match twixPhase2 doms [A, B, C] allP (allP.length + 1) p1.1 p1.2 with
    | some rows => .ok rows
    | none => .error "phase-2 fuel exhausted (unreachable)"
  | _ => .error "generate_pairwise_twix currently assumes exactly 3 factors (A,B,C)."

/-- Oracle-facing state of `run_ipo_with_oracle` (ipo_runner.py lines
159-167), instrumented with the rows and pairs sent to the oracle. -/
structure IpoState where
  covered : List Pp
  infeasible : List Pp
  feasible : List Pp
  feasProfiles : List String
  infeasProfiles : List String
  seenProfiles : List String
  rowQueries : List Row
  pairQueries : List Pp
deriving DecidableEq

/-- The empty initial `IpoState`. -/
def ipoInit : IpoState := ⟨[], [], [], [], [], [], [], []⟩

/-- Phase 1 of the runner (ipo_runner.py lines 169-222): classify each
twix row (`roI` is the verdict of `classify_row_with_nuxmv`), learning
from infeasible rows via `_find_one_infeasible_pair_in_row`; a raised
diagnosis error aborts with the state reached so far. -/
def ipoPhase1 (roI : Row → Bool) (po : Pp → Bool) :
    List Row → IpoState → Option String × IpoState
  | [], st => (none, st)
  | row :: rest, st =>
    let profile := profile_name_from_row row
    if profile ∈ st.seenProfiles then ipoPhase1 roI po rest st
    else
      let st1 := { st with seenProfiles := st.seenProfiles ++ [profile],
                           rowQueries := st.rowQueries ++ [row] }
      if roI row then
        ipoPhase1 roI po rest { st1 with
          feasProfiles := st1.feasProfiles ++ [profile],
          feasible := unionPp st1.feasible (pairs_for_row row),
          covered := unionPp st1.covered (pairs_for_row row) }
      else
        match find_one_infeasible_pair_in_row po (pairs_for_row row) st1.infeasible
            st1.feasible st1.covered with
        | .error e => (some e, { st1 with
            infeasProfiles := st1.infeasProfiles ++ [profile] })
        | .ok r =>
          ipoPhase1 roI po rest { st1 with
            infeasProfiles := st1.infeasProfiles ++ [profile],
            infeasible := r.infeasible, feasible := r.feasible,
            pairQueries := st1.pairQueries ++ r.queries }

/-- The fill loop of `_build_row_around_pair` (ipo_runner.py lines
117-140): for each missing factor, the first domain value forming no
known-infeasible pair with the row so far. -/
def buildAroundAux (doms : String → List Val) (infeasible : List Pp) :
    List String → Row → Option Row
  | [], row => some row
  | n :: rest, row =>
    if (row.lookup n).isSome then buildAroundAux doms infeasible rest row
    else
      match (doms n).find? (fun v => row.all (fun e => canonPp (n, v) e ∉ infeasible)) with
      | some v => buildAroundAux doms infeasible rest (row ++ [(n, v)])
      | none => none

/-- `_build_row_around_pair` (ipo_runner.py lines 97-140). -/
def build_row_around_pair (target : Pp) (names : List String)
    (doms : String → List Val) (infeasible : List Pp) : Option Row :=
  buildAroundAux doms infeasible names [target.1, target.2]

/-- Phase 2 of the runner (ipo_runner.py lines 229-301), fuelled (the
source's `while True`): pick an uncovered pair, try to complete it into
a row avoiding known infeasible pairs, classify, update.  Returns the
error raised (if any), the phase-2 rows and the final state. -/
def ipoPhase2 (roI : Row → Bool) (po : Pp → Bool) (names : List String)
    (doms : String → List Val) (allP : List Pp) :
    Nat → List Row → IpoState → Option String × List Row × IpoState
  | 0, rows2, st => (some "phase-2 fuel exhausted", rows2, st)
  | fuel + 1, rows2, st =>
    match allP.find? (fun p => p ∉ st.covered && p ∉ st.infeasible) with
    | none => (none, rows2, st)
    | some target =>
      match build_row_around_pair target names doms st.infeasible with
      | none =>
        ipoPhase2 roI po names doms allP fuel rows2
          { st with infeasible := addPp st.infeasible target }
      | some row =>
        let profile := profile_name_from_row row
        if profile ∈ st.seenProfiles then
          ipoPhase2 roI po names doms allP fuel rows2
            { st with covered := unionPp st.covered (pairs_for_row row) }
        else
          let st1 := { st with seenProfiles := st.seenProfiles ++ [profile],
                               rowQueries := st.rowQueries ++ [row] }
          if roI row then
            ipoPhase2 roI po names doms allP fuel (rows2 ++ [row]) { st1 with
              feasProfiles := st1.feasProfiles ++ [profile],
              feasible := unionPp st1.feasible (pairs_for_row row),
              covered := unionPp st1.covered (pairs_for_row row) }
          else
            match find_one_infeasible_pair_in_row po (pairs_for_row row) st1.infeasible
                st1.feasible st1.covered with
            | .error e => (some e, rows2, { st1 with
                infeasProfiles := st1.infeasProfiles ++ [profile] })
            | .ok r =>
              ipoPhase2 roI po names doms allP fuel (rows2 ++ [row]) { st1 with
                infeasProfiles := st1.infeasProfiles ++ [profile],
                infeasible := r.infeasible, feasible := r.feasible,
                pairQueries := st1.pairQueries ++ r.queries }

/-- Outcome of `run_ipo_with_oracle`: the error raised (if any), the
phase-1 and phase-2 rows, and the final oracle-facing state (its query
logs are meaningful even on the error paths). -/
structure IpoOutcome where
  err : Option String
  rows1 : List Row
  rows2 : List Row
  st : IpoState
deriving DecidableEq

/-- `run_ipo_with_oracle` (ipo_runner.py lines 142-320): generate the
twix rows (which raises before any oracle query when the factor count
is not three), then run the two classification phases.  `fuel` bounds
the source's `while True` completion loop; the summary-file writes of
lines 304-310 are plain I/O on the returned data. -/
def run_ipo_with_oracle (roI : Row → Bool) (po : Pp → Bool) (facs : List Factor)
    (fuel : Nat) : IpoOutcome :=
  let doms := domOf facs
  let names := facs.map Factor.name
  match generate_pairwise_twix facs with
  | .error e => ⟨some e, [], [], ipoInit⟩
  | .ok twixRows =>
    let allP := twixAllPairs doms names
    match ipoPhase1 roI po twixRows ipoInit with
    | (some e, st') => ⟨some e, twixRows, [], st'⟩
    | (none, st') =>
      match ipoPhase2 roI po names doms allP fuel [] st' with
      | (e2, rows2, stF) => ⟨e2, twixRows, rows2, stF⟩

/-- The pairs of the C4 counterexample row `{a:0, b:0, c:0}`. -/
def rowPairsC4 : List Pp :=
  [(("a", Val.int 0), ("b", Val.int 0)),
   (("a", Val.int 0), ("c", Val.int 0)),
   (("b", Val.int 0), ("c", Val.int 0))]

/-- Pair oracle of the C4 counterexample: both `(a:0,b:0)` and
`(a:0,c:0)` are infeasible, `(b:0,c:0)` is feasible. -/
def poC4 : Pp → Bool := fun p =>
  !(p == (("a", Val.int 0), ("b", Val.int 0)) || p == (("a", Val.int 0), ("c", Val.int 0)))

/-- Gain length of candidate index `j` against `remaining` (proof
device for the `bestScan` specification). -/
def gainLen (rem : List Pp) (cov : List (List Pp)) (j : Nat) : Nat :=
  (gainAt rem (cov.getD j [])).length

/-- Invariant of the `bestScan` fold after scanning all indices `< s`:
either no candidate had a positive gain, or the accumulator holds the
first index attaining the (positive) maximum gain so far. -/
def InvBS (rem : List Pp) (used : List Nat) (cov : List (List Pp)) (s : Nat) :
    Option Nat × List Pp → Prop
  | (none, bg) => bg = [] ∧ ∀ j, j < s → j ∉ used → gainLen rem cov j = 0
  | (some i, bg) =>
      i < s ∧ i ∉ used ∧ bg = gainAt rem (cov.getD i []) ∧ 0 < bg.length ∧
      (∀ j, j < i → j ∉ used → gainLen rem cov j < bg.length) ∧
      (∀ j, i < j → j < s → j ∉ used → gainLen rem cov j ≤ bg.length)

/-- Invariant of the greedy selection loop: used indices are in range,
distinct, and in bijection with the chosen tests; every feasible pair
is covered by a chosen test or still remaining; a used test never
covers a remaining pair; remaining pairs come from the feasible
universe. -/
def MinInv (rem₀ : List Pp) (tests : List Row) (cov : List (List Pp)) (st : MinState) : Prop :=
  (∀ j ∈ st.used, j < tests.length) ∧
  st.chosen = st.used.map (fun j => tests.getD j []) ∧
  (∀ p ∈ rem₀, (∃ t ∈ st.chosen, row_satisfies t p = true) ∨ p ∈ st.remaining) ∧
  (∀ j ∈ st.used, ∀ p ∈ st.remaining, p ∉ cov.getD j []) ∧
  (∀ p ∈ st.remaining, p ∈ rem₀) ∧
  st.used.Nodup

/-! ### Concrete instance exhibiting the termination-partition violation
(claim C1).

Three boolean factors `a`, `b`, `c` with default (first) value `false`.
The row oracle declares exactly the default-filled row
`{a: true, b: true, c: false}` infeasible; the pair oracle declares
every pair feasible (a consistent oracle: the row's infeasibility is a
genuine higher-order, 3-way constraint).  The pick sequence first picks
the pair `(a=true, b=true)` twice: the first pick runs the diagnosis
(which finds no infeasible pair and records the row key in
`infeasible_rows`), the second hits the `k in infeasible_rows` shortcut,
which removes the pair from `todo` without classifying it.  No other
default-filled row contains `a=true ∧ b=true`, so at termination that
pair is neither covered by a retained test nor in `infeasible_pairs`. -/

/-- The three-boolean-factor configuration of the C1 instance. -/
def cfgC1 : Cfg :=
  { factors := [⟨"a", [Val.bool false, Val.bool true], []⟩,
                ⟨"b", [Val.bool false, Val.bool true], []⟩,
                ⟨"c", [Val.bool false, Val.bool true], []⟩],
    endFlag := none, step_var := "step", test_rule := "TRUE" }

/-- Row oracle: only `{a: true, b: true, c: false}` is infeasible. -/
def roC1 : Row → Bool × String := fun row =>
  (!(row.lookup "a" == some (Val.bool true) && row.lookup "b" == some (Val.bool true) &&
      row.lookup "c" == some (Val.bool false)), "")

/-- Pair oracle: every pair is feasible. -/
def poC1 : Pp → Bool := fun _ => true

/-- The pair the engine loses: `(a=true, b=true)`. -/
def pStarC1 : Pp := (("a", Val.bool true), ("b", Val.bool true))

/-- The random pick sequence of the C1 run. -/
def picksC1 : List Pp :=
  [pStarC1, pStarC1,
   (("a", Val.bool false), ("b", Val.bool false)),
   (("a", Val.bool false), ("b", Val.bool true)),
   (("a", Val.bool true), ("b", Val.bool false)),
   (("a", Val.bool true), ("c", Val.bool true)),
   (("a", Val.bool false), ("c", Val.bool true)),
   (("b", Val.bool true), ("c", Val.bool true))]

/-- Placeholder result for projecting out of the `Option`. -/
def dummyGenResult : GenResult := ⟨[], [], [], ⟨[], [], [], [], [], [], [], [], []⟩⟩

/-- The result of the C1 run. -/
def resC1 : GenResult := (gen_tests cfgC1 roC1 poC1 picksC1).getD dummyGenResult

/-- A two-boolean-factor configuration (witness instance for C7). -/
def cfgC7 : Cfg :=
  { factors := [⟨"a", [Val.bool false, Val.bool true], []⟩,
                ⟨"b", [Val.bool false, Val.bool true], []⟩],
    endFlag := none, step_var := "step", test_rule := "TRUE" }

/-- Row oracle of the C7 witness run: everything is feasible. -/
def roC7 : Row → Bool × String := fun _ => (true, "")

/-- Pair oracle of the C7 witness run: everything is feasible. -/
def poC7 : Pp → Bool := fun _ => true

/-- Pick sequence of the C7 witness run. -/
def picksC7 : List Pp :=
  [(("a", Val.bool false), ("b", Val.bool false)),
   (("a", Val.bool false), ("b", Val.bool true)),
   (("a", Val.bool true), ("b", Val.bool false)),
   (("a", Val.bool true), ("b", Val.bool true))]

/-- The result of the C7 witness run. -/
def resC7 : GenResult := (gen_tests cfgC7 roC7 poC7 picksC7).getD dummyGenResult

/-- The duplicate-discovery state of the C7 witness: the row
`{a: true, b: true}` was already retained and its key is in
`seen_rows`, while its pair is still in `todo`. -/
def stDupC7 : GenState :=
  ⟨[(("a", Val.bool true), ("b", Val.bool true))],
   [[("a", Val.bool true), ("b", Val.bool true)]],
   [], [],
   [row_key [("a", Val.bool true), ("b", Val.bool true)]],
   [], [], [], []⟩

/-! ## Theorems -/

/-- C1.  The claim (and gen_tests' own comments) say that at
termination every pair of the universe is either satisfied by a
retained test or in `infeasible_pairs`.  Evaluating `gen_tests` on the
concrete instance above refutes this: the run terminates (`todo` is
empty) with the pair `(a=true, b=true)` in the universe, not in
`infeasible_pairs`, and satisfied by no retained test — indeed by none
of the discovered tests — although the pair oracle holds it feasible.
The `k in infeasible_rows` branch (basic2.py lines 504-506) dropped it
from `todo` unclassified, and no termination consistency check aborts
the run. -/
theorem C1_partition_violated :
    (gen_tests cfgC1 roC1 poC1 picksC1).isSome = true ∧
    resC1.final.todo = [] ∧
    pStarC1 ∈ resC1.pairs ∧
    pStarC1 ∉ resC1.infeasible_pairs ∧
    (∀ t ∈ resC1.tests, row_satisfies t pStarC1 = false) ∧
    (∀ t ∈ resC1.final.tests, row_satisfies t pStarC1 = false) ∧
    poC1 pStarC1 = true := by
  decide

/-- Scanning an index that is already used extends the invariant. -/
theorem InvBS_step_skip {rem : List Pp} {used : List Nat} {cov : List (List Pp)} {s : Nat}
    {acc : Option Nat × List Pp} (hu : s ∈ used) (h : InvBS rem used cov s acc) :
    InvBS rem used cov (s + 1) acc := by
  obtain ⟨bi, bg⟩ := acc
  cases bi with
  | none =>
    refine ⟨h.1, fun j hj hju => ?_⟩
    rcases Nat.lt_succ_iff_lt_or_eq.mp hj with hlt | rfl
    · exact h.2 j hlt hju
    · exact absurd hu hju
  | some i =>
    obtain ⟨h1, h2, h3, h4, h5, h6⟩ := h
    refine ⟨Nat.lt_succ_of_lt h1, h2, h3, h4, h5, fun j hij hj hju => ?_⟩
    rcases Nat.lt_succ_iff_lt_or_eq.mp hj with hlt | rfl
    · exact h6 j hij hlt hju
    · exact absurd hu hju

/-- Scanning an unused index whose gain strictly improves: the
accumulator moves to this index. -/
theorem InvBS_step_new {rem : List Pp} {used : List Nat} {cov : List (List Pp)} {s : Nat}
    {bi : Option Nat} {bg : List Pp} (hu : s ∉ used) (h : InvBS rem used cov s (bi, bg))
    (hgt : (gainAt rem (cov.getD s [])).length > bg.length) :
    InvBS rem used cov (s + 1) (some s, gainAt rem (cov.getD s [])) := by
  have hall : ∀ j, j < s → j ∉ used → gainLen rem cov j ≤ bg.length := by
    intro j hj hju
    cases bi with
    | none =>
      rw [h.2 j hj hju]
      exact Nat.zero_le _
    | some i =>
      obtain ⟨h1, h2, h3, h4, h5, h6⟩ := h
      rcases Nat.lt_trichotomy j i with hlt | rfl | hgt'
      · exact Nat.le_of_lt (h5 j hlt hju)
      · rw [show gainLen rem cov j = bg.length from by rw [gainLen, ← h3]]
      · exact h6 j hgt' hj hju
  refine ⟨Nat.lt_succ_self s, hu, rfl, Nat.lt_of_le_of_lt (Nat.zero_le _) hgt, ?_, ?_⟩
  · intro j hj hju
    exact Nat.lt_of_le_of_lt (hall j hj hju) hgt
  · intro j hij hj _
    exact absurd (Nat.lt_of_lt_of_le hij (Nat.lt_succ_iff.mp hj)) (Nat.lt_irrefl s)

/-- Scanning an unused index whose gain does not improve keeps the
accumulator. -/
theorem InvBS_step_keep {rem : List Pp} {used : List Nat} {cov : List (List Pp)} {s : Nat}
    {bi : Option Nat} {bg : List Pp} (hu : s ∉ used) (h : InvBS rem used cov s (bi, bg))
    (hle : ¬ (gainAt rem (cov.getD s [])).length > bg.length) :
    InvBS rem used cov (s + 1) (bi, bg) := by
  cases bi with
  | none =>
    refine ⟨h.1, fun j hj hju => ?_⟩
    rcases Nat.lt_succ_iff_lt_or_eq.mp hj with hlt | rfl
    · exact h.2 j hlt hju
    · have := h.1
      subst this
      simp only [List.length_nil] at hle
      rw [gainLen]
      omega
  | some i =>
    obtain ⟨h1, h2, h3, h4, h5, h6⟩ := h
    refine ⟨Nat.lt_succ_of_lt h1, h2, h3, h4, h5, fun j hij hj hju => ?_⟩
    rcases Nat.lt_succ_iff_lt_or_eq.mp hj with hlt | rfl
    · exact h6 j hij hlt hju
    · rw [gainLen]
      omega

/-- The `bestScan` fold maintains its invariant over the scanned
suffix. -/
theorem bestScan_go (rem : List Pp) (used : List Nat) (cov : List (List Pp)) :
    ∀ (cs : List (List Pp)) (s : Nat) (acc : Option Nat × List Pp),
    cs = cov.drop s →
    InvBS rem used cov s acc →
    InvBS rem used cov (s + cs.length) (bestScan rem used cs s acc) := by
  intro cs
  induction cs with
  | nil =>
    intro s acc _ hinv
    simpa using hinv
  | cons cset rest ih =>
    intro s acc hdrop hinv
    have hgetS : cov.getD s [] = cset := by
      have h0 : cov[s]? = some cset := by
        have h1 := List.getElem?_drop cov s 0
        rw [← hdrop] at h1
        simpa using h1.symm
      simp [List.getD_eq_getElem?_getD, h0]
    have hrest : rest = cov.drop (s + 1) := by
      have h1 : (cov.drop s).drop 1 = cov.drop (s + 1) := by
        rw [List.drop_drop]
      rw [← hdrop] at h1
      simpa using h1
    have harith : s + 1 + rest.length = s + (cset :: rest).length := by
      simp
      omega
    rw [bestScan]
    by_cases hu : s ∈ used
    · rw [if_pos hu]
      have h2 := ih (s + 1) acc hrest (InvBS_step_skip hu hinv)
      rw [harith] at h2
      exact h2
    · rw [if_neg hu]
      dsimp only
      obtain ⟨bi, bg⟩ := acc
      by_cases hg : (gainAt rem cset).length > bg.length
      · rw [if_pos hg]
        have hnew : InvBS rem used cov (s + 1) (some s, gainAt rem (cov.getD s [])) :=
          InvBS_step_new hu hinv (by rw [hgetS]; exact hg)
        rw [hgetS] at hnew
        have h2 := ih (s + 1) (some s, gainAt rem cset) hrest hnew
        rw [harith] at h2
        exact h2
      · rw [if_neg hg]
        have hkeep : InvBS rem used cov (s + 1) (bi, bg) :=
          InvBS_step_keep hu hinv (by rw [hgetS]; exact hg)
        have h2 := ih (s + 1) (bi, bg) hrest hkeep
        rw [harith] at h2
        exact h2

/-- Specification of a successful `bestScan`: the returned index is the
first unused index attaining the maximum positive gain, with its gain. -/
theorem bestScan_some {rem : List Pp} {used : List Nat} {cov : List (List Pp)}
    {i : Nat} {gain : List Pp} (h : bestScan rem used cov 0 (none, []) = (some i, gain)) :
    i < cov.length ∧ i ∉ used ∧ gain = gainAt rem (cov.getD i []) ∧ 0 < gain.length ∧
    (∀ j, j < i → j ∉ used → gainLen rem cov j < gain.length) ∧
    (∀ j, i < j → j < cov.length → j ∉ used → gainLen rem cov j ≤ gain.length) := by
  have h0 : InvBS rem used cov 0 ((none : Option Nat), ([] : List Pp)) :=
    ⟨rfl, fun j hj _ => absurd hj (Nat.not_lt_zero j)⟩
  have hgo := bestScan_go rem used cov cov 0 (none, []) (by rw [List.drop_zero]) h0
  rw [h] at hgo
  rw [Nat.zero_add] at hgo
  exact hgo

/-- Specification of a failed `bestScan`: every unused candidate has
empty gain. -/
theorem bestScan_none {rem : List Pp} {used : List Nat} {cov : List (List Pp)}
    {bg : List Pp} (h : bestScan rem used cov 0 (none, []) = (none, bg)) :
    ∀ j, j < cov.length → j ∉ used → gainAt rem (cov.getD j []) = [] := by
  have h0 : InvBS rem used cov 0 ((none : Option Nat), ([] : List Pp)) :=
    ⟨rfl, fun j hj _ => absurd hj (Nat.not_lt_zero j)⟩
  have hgo := bestScan_go rem used cov cov 0 (none, []) (by rw [List.drop_zero]) h0
  rw [h] at hgo
  intro j hj hju
  have := hgo.2 j (by simpa using hj) hju
  exact List.length_eq_zero.mp this

/-- Membership in a deduplicated list. -/
theorem mem_dedupList {α : Type} [DecidableEq α] (l : List α) (x : α) :
    x ∈ dedupList l ↔ x ∈ l := by
  induction l with
  | nil => simp [dedupList]
  | cons y ys ih =>
    rw [dedupList]
    by_cases hy : y ∈ dedupList ys
    · rw [if_pos hy]
      rw [ih]
      constructor
      · exact fun h => List.mem_cons_of_mem _ h
      · intro h
        rcases List.mem_cons.mp h with rfl | h
        · exact ih.mp hy
        · exact h
    · rw [if_neg hy]
      constructor
      · intro h
        rcases List.mem_cons.mp h with rfl | h
        · exact List.mem_cons_self _ _
        · exact List.mem_cons_of_mem _ (ih.mp h)
      · intro h
        rcases List.mem_cons.mp h with rfl | h
        · exact List.mem_cons_self _ _
        · exact List.mem_cons_of_mem _ (ih.mpr h)

/-- The greedy selection loop preserves its invariant. -/
theorem minimize_loop_inv (rem₀ : List Pp) (tests : List Row) (cov : List (List Pp))
    (hcov : cov = tests.map (fun t => pairs_covered_by_row t rem₀)) :
    ∀ (fuel : Nat) (st : MinState), MinInv rem₀ tests cov st →
    MinInv rem₀ tests cov (minimize_loop cov tests fuel st) := by
  have hlen : cov.length = tests.length := by rw [hcov, List.length_map]
  intro fuel
  induction fuel with
  | zero => exact fun st h => h
  | succ fuel ih =>
    intro st h
    rw [minimize_loop]
    split
    · exact h
    · cases hbs : bestScan st.remaining st.used cov 0 (none, []) with
    | mk bi gain =>
      cases bi with
      | none => exact h
      | some i =>
        apply ih
        obtain ⟨hi, hiu, hgain, hpos, _, _⟩ := bestScan_some hbs
        obtain ⟨h1, h2, h3, h4, h5, h6⟩ := h
        have hit : i < tests.length := hlen ▸ hi
        have hcovi : cov.getD i [] = pairs_covered_by_row (tests.getD i []) rem₀ := by
          rw [List.getD_eq_getElem cov [] hi, List.getD_eq_getElem tests [] hit]
          have hmi : i < (tests.map (fun t => pairs_covered_by_row t rem₀)).length := by
            rw [← hcov]; exact hi
          have hg : cov[i] = (tests.map (fun t => pairs_covered_by_row t rem₀)).get ⟨i, hmi⟩ := by
            rw [List.get_eq_getElem]
            congr 1
          rw [hg, List.get_eq_getElem, List.getElem_map]
        refine ⟨?_, ?_, ?_, ?_, ?_, ?_⟩ <;> dsimp only
        · intro j hj
          rcases List.mem_append.mp hj with hj | hj
          · exact h1 j hj
          · rw [List.mem_singleton.mp hj]
            exact hit
        · rw [h2, List.map_append]
          rfl
        · intro p hp
          rcases h3 p hp with hcovd | hrem
          · left
            obtain ⟨t, ht, hst⟩ := hcovd
            exact ⟨t, List.mem_append_left _ ht, hst⟩
          · by_cases hpg : p ∈ gain
            · left
              refine ⟨tests.getD i [], List.mem_append_right _ (List.mem_singleton_self _), ?_⟩
              have hpc : p ∈ cov.getD i [] := by
                rw [hgain] at hpg
                unfold gainAt at hpg
                exact of_decide_eq_true (List.mem_filter.mp hpg).2
              rw [hcovi] at hpc
              unfold pairs_covered_by_row at hpc
              exact (List.mem_filter.mp hpc).2
            · right
              rw [List.mem_filter]
              exact ⟨hrem, by simpa using hpg⟩
        · intro j hj p hp
          have hprem : p ∈ st.remaining := (List.mem_filter.mp hp).1
          have hpng : p ∉ gain := by simpa using (List.mem_filter.mp hp).2
          rcases List.mem_append.mp hj with hj | hj
          · exact h4 j hj p hprem
          · rw [List.mem_singleton.mp hj]
            intro hpc
            apply hpng
            rw [hgain]
            unfold gainAt
            rw [List.mem_filter]
            exact ⟨hprem, decide_eq_true hpc⟩
        · intro p hp
          exact h5 p (List.mem_filter.mp hp).1
        · simp only [List.nodup_append, List.nodup_cons, List.nodup_nil]
          exact ⟨h6, by simpa using hiu⟩

/-- With enough fuel, the greedy loop ends only at one of the loop's
own exits: remaining empty, or no candidate with positive gain. -/
theorem minimize_loop_end (cov : List (List Pp)) (tests : List Row) :
    ∀ (fuel : Nat) (st : MinState), st.remaining.length < fuel →
    (minimize_loop cov tests fuel st).remaining = [] ∨
    (bestScan (minimize_loop cov tests fuel st).remaining
      (minimize_loop cov tests fuel st).used cov 0 (none, [])).1 = none := by
  intro fuel
  induction fuel with
  | zero => intro st h; omega
  | succ fuel ih =>
    intro st h
    rw [minimize_loop]
    split
    · rename_i hemp
      left
      exact List.isEmpty_iff.mp hemp
    · cases hbs : bestScan st.remaining st.used cov 0 (none, []) with
    | mk bi gain =>
      cases bi with
      | none =>
        right
        rw [hbs]
      | some i =>
        obtain ⟨_, _, hgain, hpos, _, _⟩ := bestScan_some hbs
        apply ih
        dsimp only
        have hx : ∃ x ∈ st.remaining, ¬ (decide (x ∉ gain) = true) := by
          cases hg : gain with
          | nil => rw [hg] at hpos; simp at hpos
          | cons x xs =>
            refine ⟨x, ?_, ?_⟩
            · have hxg : x ∈ gain := by rw [hg]; exact List.mem_cons_self _ _
              rw [hgain] at hxg
              exact (List.mem_filter.mp hxg).1
            · have hxg : x ∈ gain := by rw [hg]; exact List.mem_cons_self _ _
              simp [hxg]
        obtain ⟨x, hx1, hx2⟩ := hx
        have hlt : (st.remaining.filter (fun p => p ∉ gain)).length < st.remaining.length :=
          List.length_filter_lt_length_iff_exists.mpr ⟨x, hx1, hx2⟩
        omega

/-- Final-state facts of `minimize_tests_greedy`: the result is the
`chosen` list of a final loop state that satisfies the invariant and
one of the loop's exit conditions. -/
theorem minimize_final_facts (tests : List Row) (feas : List Pp) :
    ∃ F : MinState,
      minimize_tests_greedy tests feas = F.chosen ∧
      MinInv (dedupList feas) tests
        (tests.map (fun t => pairs_covered_by_row t (dedupList feas))) F ∧
      (F.remaining = [] ∨ ∀ j, j < tests.length → j ∉ F.used →
        gainAt F.remaining
          ((tests.map (fun t => pairs_covered_by_row t (dedupList feas))).getD j []) = []) := by
  set rem₀ := dedupList feas with hrem
  set cov := tests.map (fun t => pairs_covered_by_row t rem₀) with hcovd
  refine ⟨minimize_loop cov tests (rem₀.length + 1) ⟨rem₀, [], []⟩, rfl, ?_, ?_⟩
  · refine minimize_loop_inv rem₀ tests cov hcovd _ _ ⟨?_, rfl, ?_, ?_, ?_, List.nodup_nil⟩
    · intro j hj
      simp at hj
    · exact fun p hp => Or.inr hp
    · intro j hj
      simp at hj
    · exact fun p hp => hp
  · have hend := minimize_loop_end cov tests (rem₀.length + 1) ⟨rem₀, [], []⟩
      (by simp)
    rcases hend with hemp | hnone
    · exact Or.inl hemp
    · right
      intro j hj hju
      cases hbs : bestScan (minimize_loop cov tests (rem₀.length + 1) ⟨rem₀, [], []⟩).remaining
          (minimize_loop cov tests (rem₀.length + 1) ⟨rem₀, [], []⟩).used cov 0 (none, []) with
      | mk b1 b2 =>
        have hb1 : b1 = none := by rw [hbs] at hnone; exact hnone
        subst hb1
        exact bestScan_none hbs j (by rw [hcovd, List.length_map]; exact hj) hju

/-- Every test selected by the minimizer is one of the discovered
tests. -/
theorem minimize_chosen_mem (tests : List Row) (feas : List Pp) :
    ∀ t ∈ minimize_tests_greedy tests feas, t ∈ tests := by
  obtain ⟨F, heq, ⟨h1, h2, _, _, _, _⟩, _⟩ := minimize_final_facts tests feas
  intro t ht
  rw [heq, h2] at ht
  obtain ⟨j, hj, rfl⟩ := List.mem_map.mp ht
  have hjt := h1 j hj
  rw [List.getD_eq_getElem tests [] hjt]
  exact List.getElem_mem hjt

/-- Coverage preservation of the greedy minimizer: restricted to the
feasible pairs, the selected tests cover exactly what the full
discovered test list covers. -/
theorem minimize_coverage (tests : List Row) (feas : List Pp) (p : Pp) (hp : p ∈ feas) :
    (∃ t ∈ minimize_tests_greedy tests feas, row_satisfies t p = true) ↔
      (∃ t ∈ tests, row_satisfies t p = true) := by
  obtain ⟨F, heq, ⟨h1, h2, h3, h4, h5, h6⟩, hend⟩ := minimize_final_facts tests feas
  constructor
  · intro ⟨t, ht, hst⟩
    rw [heq, h2] at ht
    obtain ⟨j, hj, rfl⟩ := List.mem_map.mp ht
    have hjt := h1 j hj
    refine ⟨tests.getD j [], ?_, hst⟩
    rw [List.getD_eq_getElem tests [] hjt]
    exact List.getElem_mem hjt
  · intro ⟨t, ht, hst⟩
    have hp₀ : p ∈ dedupList feas := (mem_dedupList feas p).mpr hp
    rcases h3 p hp₀ with hcovd | hrem
    · rw [heq]
      exact hcovd
    · exfalso
      obtain ⟨j, hjt, rfl⟩ := List.mem_iff_getElem.mp ht
      have hcovj : (tests.map (fun t => pairs_covered_by_row t (dedupList feas))).getD j []
          = pairs_covered_by_row tests[j] (dedupList feas) := by
        rw [List.getD_eq_getElem _ [] (by rw [List.length_map]; exact hjt)]
        rw [List.getElem_map]
      have hpj : p ∈ (tests.map (fun t => pairs_covered_by_row t (dedupList feas))).getD j [] := by
        rw [hcovj]
        unfold pairs_covered_by_row
        rw [List.mem_filter]
        exact ⟨hp₀, hst⟩
      by_cases hju : j ∈ F.used
      · exact h4 j hju p hrem hpj
      · rcases hend with hemp | hgains
        · rw [hemp] at hrem
          exact List.not_mem_nil p hrem
        · have := hgains j hjt hju
          have hpg : p ∈ gainAt F.remaining
              ((tests.map (fun t => pairs_covered_by_row t (dedupList feas))).getD j []) := by
            unfold gainAt
            rw [List.mem_filter]
            exact ⟨hrem, decide_eq_true hpj⟩
          rw [this] at hpg
          exact List.not_mem_nil p hpg

/-- The minimizer keeps row keys distinct when the discovered tests
have distinct row keys. -/
theorem minimize_nodup_keys (tests : List Row) (feas : List Pp)
    (h : (tests.map row_key).Nodup) :
    ((minimize_tests_greedy tests feas).map row_key).Nodup := by
  obtain ⟨F, heq, ⟨h1, h2, _, _, _, h6⟩, _⟩ := minimize_final_facts tests feas
  rw [heq, h2, List.map_map]
  refine List.Nodup.map_on ?_ h6
  intro j hj j' hj' hkey
  have hjt := h1 j hj
  have hjt' := h1 j' hj'
  simp only [Function.comp] at hkey
  rw [List.getD_eq_getElem tests [] hjt, List.getD_eq_getElem tests [] hjt'] at hkey
  have hmk : ∀ (i : Nat) (hi : i < tests.length),
      row_key tests[i] = (tests.map row_key).get ⟨i, by rw [List.length_map]; exact hi⟩ := by
    intro i hi
    rw [List.get_eq_getElem, List.getElem_map]
  rw [hmk j hjt, hmk j' hjt'] at hkey
  have := h.get_inj_iff.mp hkey
  exact congrArg Fin.val this

/-- The verdict fold of `run_nuxmv` keeps the verdict of the last
matching line: it equals the last element of the per-line match results,
falling back to the accumulator when no line matches. -/
theorem foldl_verdict_eq_getLast (ls : List (List Char)) (acc : Option Bool) :
    ls.foldl
        (fun a line =>
          match matchVerdictLine line with
          | some v => some v
          | none => a)
        acc =
      match (ls.filterMap matchVerdictLine).getLast? with
      | some v => some v
      | none => acc := by
  induction ls generalizing acc with
  | nil => rfl
  | cons l ls ih =>
    rw [List.foldl_cons, ih]
    cases h : matchVerdictLine l with
    | none => simp [List.filterMap_cons, h]
    | some v =>
      simp only [List.filterMap_cons, h]
      cases ht : ls.filterMap matchVerdictLine with
      | nil => simp [ht]
      | cons x xs =>
        simp only [ht, List.getLast?_cons_cons]
        cases hg : (x :: xs).getLast? with
        | none => exact absurd (List.getLast?_eq_none_iff.mp hg) (by simp)
        | some y => rfl

/-- C2, counterexample.  The claim says any verifier output with no
matching verdict line fails with a protocol error and classification
never falls back to a default verdict.  The legacy gateway
(`run_nuxmv`) does raise, but the ipo/oracle classifiers
(`classify_row_with_nuxmv`, `classify_partial_with_nuxmv`) classify the
very same verdict-free output as infeasible (`feasible = False`) by an
explicit default fallback. -/
theorem C2_counterexample :
    nuxmvVerdict "no verdict here\n" = none ∧
    run_nuxmv (fun _ => .finished "no verdict here" "") "model.smv" "TRUE" =
      .error (.protocol "no verdict here\n") ∧
    ipo_classify_feasible "no verdict here" "" = false := by
  decide

/-- C2, amended.  `run_nuxmv` classifies by the verdict of the last
output line matching the specification-verdict pattern (`FEASIBLE` on
`is false`, `INFEASIBLE` on `is true`) and raises a protocol error
exactly when no line matches; the ipo/oracle classifiers instead test
for the substring ` is false` first, then ` is true`, on
`stdout + "\n" + stderr`, and fall back to the default verdict
infeasible when neither substring occurs. -/
theorem C2_amended :
    (∀ out : String,
        nuxmvVerdict out = none ↔
          ∀ line ∈ pySplitlines out.data, matchVerdictLine line = none)
    ∧ (∀ out : String,
        nuxmvVerdict out = ((pySplitlines out.data).filterMap matchVerdictLine).getLast?)
    ∧ (∀ (exec : String → ProcResult) (model phi so se : String),
        checkBalanced phi = true →
        exec (nuxmvScript model phi) = .finished so se →
        (run_nuxmv exec model phi = .ok ("FEASIBLE", so ++ "\n" ++ se) ↔
            nuxmvVerdict (so ++ "\n" ++ se) = some false)
        ∧ (run_nuxmv exec model phi = .ok ("INFEASIBLE", so ++ "\n" ++ se) ↔
            nuxmvVerdict (so ++ "\n" ++ se) = some true)
        ∧ (run_nuxmv exec model phi = .error (.protocol (so ++ "\n" ++ se)) ↔
            nuxmvVerdict (so ++ "\n" ++ se) = none))
    ∧ (∀ so se : String,
        (ipo_classify_feasible so se = true ↔
            substrIn " is false".data (so ++ "\n" ++ se).data = true)
        ∧ (substrIn " is false".data (so ++ "\n" ++ se).data = false →
            ipo_classify_feasible so se = false)) := by
  have hlast : ∀ out : String,
      nuxmvVerdict out = ((pySplitlines out.data).filterMap matchVerdictLine).getLast? := by
    intro out
    unfold nuxmvVerdict
    rw [foldl_verdict_eq_getLast]
    cases ((pySplitlines out.data).filterMap matchVerdictLine).getLast? <;> rfl
  refine ⟨?_, hlast, ?_, ?_⟩
  · intro out
    rw [hlast out]
    rw [List.getLast?_eq_none_iff, List.filterMap_eq_nil_iff]
  · intro exec model phi so se hbal hexec
    unfold run_nuxmv
    rw [if_pos hbal, hexec]
    cases hv : nuxmvVerdict (so ++ "\n" ++ se) with
    | none => simp [hv]
    | some b => cases b <;> simp [hv]
  · intro so se
    unfold ipo_classify_feasible
    cases hf : substrIn " is false".data ((so ++ "\n" ++ se) : String).data with
    | true => simp
    | false =>
      cases ht : substrIn " is true".data ((so ++ "\n" ++ se) : String).data with
      | true => simp
      | false => simp

/-- C2, witness for the amended theorem: a concrete feasibility verdict
classified through `run_nuxmv` from a verdict line of the verifier. -/
theorem C2_amended_witness :
    run_nuxmv (fun _ => .finished "-- specification !( p ) is false" "") "model.smv" "p" =
      .ok ("FEASIBLE", "-- specification !( p ) is false\n") := by
  exact ((C2_amended.2.2.1 (fun _ => .finished "-- specification !( p ) is false" "")
    "model.smv" "p" "-- specification !( p ) is false" "" (by decide) rfl).1).mpr (by decide)

/-- C3.  When the external verifier subprocess exceeds its timeout
bound, `run_nuxmv` raises the distinct timeout error (never a verdict),
and both classification helpers `test_row` and `pair_is_feasible`
propagate it: no timed-out invocation is ever classified feasible or
infeasible.  (The ipo-path runner invokes its subprocess without any
timeout bound, so no invocation there can exceed it.) -/
theorem C3_timeout_distinct :
    (∀ (exec : String → ProcResult) (model phi : String),
        checkBalanced phi = true →
        exec (nuxmvScript model phi) = .timeout →
        run_nuxmv exec model phi = .error (.timeout phi)
        ∧ ∀ r, run_nuxmv exec model phi ≠ .ok r)
    ∧ (∀ (exec : String → ProcResult) (row : Row) (cfg : Cfg) (model : String),
        checkBalanced (phi_for_row row cfg) = true →
        exec (nuxmvScript model (phi_for_row row cfg)) = .timeout →
        test_row exec row cfg model = .error (.timeout (phi_for_row row cfg))
        ∧ ∀ r, test_row exec row cfg model ≠ .ok r)
    ∧ (∀ (exec : String → ProcResult) (pair : Pp) (cfg : Cfg) (model : String),
        checkBalanced (phi_for_pair pair cfg) = true →
        exec (nuxmvScript model (phi_for_pair pair cfg)) = .timeout →
        pair_is_feasible exec pair cfg model = .error (.timeout (phi_for_pair pair cfg))
        ∧ ∀ b, pair_is_feasible exec pair cfg model ≠ .ok b) := by
  have hrun : ∀ (exec : String → ProcResult) (model phi : String),
      checkBalanced phi = true →
      exec (nuxmvScript model phi) = .timeout →
      run_nuxmv exec model phi = .error (.timeout phi) := by
    intro exec model phi hbal hexec
    unfold run_nuxmv
    rw [if_pos hbal, hexec]
  refine ⟨?_, ?_, ?_⟩
  · intro exec model phi hbal hexec
    refine ⟨hrun exec model phi hbal hexec, ?_⟩
    intro r
    rw [hrun exec model phi hbal hexec]
    simp
  · intro exec row cfg model hbal hexec
    have h := hrun exec model (phi_for_row row cfg) hbal hexec
    unfold test_row
    rw [h]
    exact ⟨rfl, by intro r; simp⟩
  · intro exec pair cfg model hbal hexec
    have h := hrun exec model (phi_for_pair pair cfg) hbal hexec
    unfold pair_is_feasible
    rw [h]
    exact ⟨rfl, by intro b; simp⟩

/-- C3, witness: a concrete timed-out invocation on the trivial
configuration, surfaced as the distinct timeout error by `run_nuxmv`,
`test_row` and `pair_is_feasible` alike. -/
theorem C3_timeout_distinct_witness :
    run_nuxmv (fun _ => .timeout) "model.smv" "TRUE" = .error (.timeout "TRUE")
    ∧ test_row (fun _ => .timeout) [] cfg0 "model.smv" =
        .error (.timeout (phi_for_row [] cfg0))
    ∧ pair_is_feasible (fun _ => .timeout) (("a", .bool true), ("b", .bool false)) cfg0
        "model.smv" =
        .error (.timeout (phi_for_pair (("a", .bool true), ("b", .bool false)) cfg0)) := by
  refine ⟨(C3_timeout_distinct.1 (fun _ => .timeout) "model.smv" "TRUE" (by decide) rfl).1,
    (C3_timeout_distinct.2.1 (fun _ => .timeout) [] cfg0 "model.smv" (by decide) rfl).1,
    (C3_timeout_distinct.2.2 (fun _ => .timeout) (("a", .bool true), ("b", .bool false)) cfg0
      "model.smv" (by decide) rfl).1⟩

/-- Decoding a digit character produced by `digitChar`. -/
theorem digitVal_digitChar : ∀ d < 10, digitVal (digitChar d) = d := by decide

/-- Digit characters are neither `'_'` nor `'-'`. -/
theorem digitChar_ne : ∀ d < 10, digitChar d ≠ '_' ∧ digitChar d ≠ '-' := by decide

/-- `digitsVal` of a string extended by one digit. -/
theorem digitsVal_append (xs : List Char) (c : Char) :
    digitsVal (xs ++ [c]) = 10 * digitsVal xs + digitVal c := by
  unfold digitsVal
  rw [List.foldl_append]
  rfl

/-- `digitsVal` inverts `natDigitsFuel` whenever the fuel suffices. -/
theorem digitsVal_natDigitsFuel : ∀ (fuel n : Nat), n ≤ fuel →
    digitsVal (natDigitsFuel fuel n) = n := by
  intro fuel
  induction fuel with
  | zero =>
    intro n hn
    interval_cases n
    decide
  | succ fuel ih =>
    intro n hn
    rw [natDigitsFuel]
    split
    · rename_i h10
      show digitsVal [digitChar n] = n
      have := digitVal_digitChar n h10
      simp [digitsVal, List.foldl_cons]
      omega
    · rename_i h10
      rw [digitsVal_append]
      have hrec : n / 10 ≤ fuel := by omega
      rw [ih (n / 10) hrec]
      have := digitVal_digitChar (n % 10) (Nat.mod_lt _ (by omega))
      omega

/-- `natDigits` is injective: decimal notation determines the number. -/
theorem natDigits_inj {m n : Nat} (h : natDigits m = natDigits n) : m = n := by
  have hm := digitsVal_natDigitsFuel m m le_rfl
  have hn := digitsVal_natDigitsFuel n n le_rfl
  unfold natDigits at h
  rw [h] at hm
  omega

/-- Every character of a `natDigitsFuel` string is a digit character. -/
theorem natDigitsFuel_mem : ∀ (fuel n : Nat) (c : Char), c ∈ natDigitsFuel fuel n →
    ∃ d, d < 10 ∧ c = digitChar d := by
  intro fuel
  induction fuel with
  | zero =>
    intro n c hc
    rw [natDigitsFuel, List.mem_singleton] at hc
    exact ⟨n % 10, Nat.mod_lt _ (by omega), hc⟩
  | succ fuel ih =>
    intro n c hc
    rw [natDigitsFuel] at hc
    split at hc
    · rename_i h10
      rw [List.mem_singleton] at hc
      exact ⟨n, h10, hc⟩
    · rcases List.mem_append.mp hc with h1 | h2
      · exact ih _ _ h1
      · exact ⟨n % 10, Nat.mod_lt _ (by omega), List.mem_singleton.mp h2⟩

/-- `natDigitsFuel` strings are non-empty. -/
theorem natDigitsFuel_ne_nil (fuel n : Nat) : natDigitsFuel fuel n ≠ [] := by
  cases fuel with
  | zero => simp [natDigitsFuel]
  | succ fuel =>
    rw [natDigitsFuel]
    split
    · simp
    · simp

/-- `intDigits` is injective: Python `str` distinguishes integers. -/
theorem intDigits_inj {i j : Int} (h : intDigits i = intDigits j) : i = j := by
  have hdig : ∀ n : Nat, ∀ c ∈ natDigits n, c ≠ '-' := by
    intro n c hc
    obtain ⟨d, hd, rfl⟩ := natDigitsFuel_mem n n c hc
    exact (digitChar_ne d hd).2
  have hne : ∀ n : Nat, natDigits n ≠ [] := fun n => natDigitsFuel_ne_nil n n
  unfold intDigits at h
  split at h <;> split at h
  · rename_i hi hj
    rw [List.cons.injEq] at h
    have := natDigits_inj h.2
    omega
  · rename_i hi hj
    exfalso
    cases hnd : natDigits j.toNat with
    | nil => exact hne _ hnd
    | cons c cs =>
      rw [hnd, List.cons.injEq] at h
      exact hdig j.toNat c (by rw [hnd]; exact List.mem_cons_self c cs) h.1.symm
  · rename_i hi hj
    exfalso
    cases hnd : natDigits i.toNat with
    | nil => exact hne _ hnd
    | cons c cs =>
      rw [hnd, List.cons.injEq] at h
      exact hdig i.toNat c (by rw [hnd]; exact List.mem_cons_self c cs) h.1
  · rename_i hi hj
    have := natDigits_inj h
    omega

/-- On booleans and integers, `encodeVal` is non-empty and free of the
underscore separator. -/
theorem encodeVal_shape (v : Val) (hv : v.isBool = true ∨ v.isInt = true) :
    encodeVal v ≠ [] ∧ '_' ∉ encodeVal v := by
  rcases hv with hb | hi
  · cases v with
    | bool b => cases b <;> decide
    | int i => simp [Val.isBool] at hb
    | none => simp [Val.isBool] at hb
  · cases v with
    | bool b => simp [Val.isInt] at hi
    | none => simp [Val.isInt] at hi
    | int i =>
      constructor
      · show intDigits i ≠ []
        unfold intDigits
        split
        · simp
        · exact natDigitsFuel_ne_nil _ _
      · show '_' ∉ intDigits i
        intro hmem
        have hdig : ∀ n : Nat, '_' ∉ natDigits n := by
          intro n hc
          obtain ⟨d, hd, hdc⟩ := natDigitsFuel_mem n n _ hc
          exact (digitChar_ne d hd).1 hdc.symm
        unfold intDigits at hmem
        split at hmem
        · rcases List.mem_cons.mp hmem with h1 | h2
          · exact absurd h1 (by decide)
          · exact hdig _ h2
        · exact hdig _ hmem

/-- `encodeVal` is injective on values of one kind (both booleans or
both integers) — the domain shape `load_cfg` produces. -/
theorem encodeVal_inj (v w : Val)
    (hk : (v.isBool = true ∧ w.isBool = true) ∨ (v.isInt = true ∧ w.isInt = true))
    (h : encodeVal v = encodeVal w) : v = w := by
  rcases hk with ⟨hv, hw⟩ | ⟨hv, hw⟩
  · cases v with
    | bool b =>
      cases w with
      | bool c => cases b <;> cases c <;> first | rfl | exact absurd h (by decide)
      | int j => simp [Val.isBool] at hw
      | none => simp [Val.isBool] at hw
    | int i => simp [Val.isBool] at hv
    | none => simp [Val.isBool] at hv
  · cases v with
    | bool b => simp [Val.isInt] at hv
    | none => simp [Val.isInt] at hv
    | int i =>
      cases w with
      | bool c => simp [Val.isInt] at hw
      | none => simp [Val.isInt] at hw
      | int j => exact congrArg Val.int (intDigits_inj h)

/-- Splitting a list at an underscore separator is unambiguous when the
two prefixes are underscore-free. -/
theorem splitAtSep {t t' r r' : List Char} (ht : '_' ∉ t) (ht' : '_' ∉ t')
    (h : t ++ '_' :: r = t' ++ '_' :: r') : t = t' ∧ r = r' := by
  induction t generalizing t' with
  | nil =>
    cases t' with
    | nil => simpa using h
    | cons c cs =>
      exfalso
      rw [List.nil_append, List.cons_append, List.cons.injEq] at h
      exact ht' (h.1 ▸ List.mem_cons_self c cs)
  | cons c cs ih =>
    cases t' with
    | nil =>
      exfalso
      rw [List.nil_append, List.cons_append, List.cons.injEq] at h
      exact ht (h.1 ▸ List.mem_cons_self c cs)
    | cons d ds =>
      rw [List.cons_append, List.cons_append, List.cons.injEq] at h
      have hcs : '_' ∉ cs := fun hm => ht (List.mem_cons_of_mem _ hm)
      have hds : '_' ∉ ds := fun hm => ht' (List.mem_cons_of_mem _ hm)
      obtain ⟨h1, h2⟩ := ih hcs hds h.2
      exact ⟨by rw [h.1, h1], h2⟩

/-- `joinUnderscore` is injective on equally long lists of parts of the
shape `head character :: non-empty underscore-free tail`. -/
theorem joinUnderscore_inj : ∀ (ps qs : List (List Char)),
    (∀ p ∈ ps, ∃ c t, p = c :: t ∧ t ≠ [] ∧ '_' ∉ t) →
    (∀ q ∈ qs, ∃ c t, q = c :: t ∧ t ≠ [] ∧ '_' ∉ t) →
    ps.length = qs.length →
    joinUnderscore ps = joinUnderscore qs → ps = qs := by
  intro ps
  induction ps with
  | nil =>
    intro qs _ _ hlen _
    cases qs with
    | nil => rfl
    | cons q qs => simp at hlen
  | cons p ps ih =>
    intro qs hps hqs hlen hj
    cases qs with
    | nil => simp at hlen
    | cons q qs =>
      obtain ⟨c, t, rfl, htne, htf⟩ := hps p (List.mem_cons_self _ _)
      obtain ⟨c', t', rfl, htne', htf'⟩ := hqs q (List.mem_cons_self _ _)
      cases ps with
      | nil =>
        cases qs with
        | nil =>
          rw [joinUnderscore, joinUnderscore] at hj
          rw [hj]
        | cons q2 qs2 => simp at hlen
      | cons p2 ps2 =>
        cases qs with
        | nil => simp at hlen
        | cons q2 qs2 =>
          have hj' : (c :: t) ++ '_' :: joinUnderscore (p2 :: ps2) =
              (c' :: t') ++ '_' :: joinUnderscore (q2 :: qs2) := hj
          rw [List.cons_append, List.cons_append, List.cons.injEq] at hj'
          obtain ⟨hts, hrest⟩ := splitAtSep htf htf' hj'.2
          have htail := ih (q2 :: qs2)
            (fun x hx => hps x (List.mem_cons_of_mem _ hx))
            (fun x hx => hqs x (List.mem_cons_of_mem _ hx))
            (by simpa using hlen) hrest
          rw [hj'.1, hts, htail]

/-- Inserting below all existing entries is a cons. -/
theorem insertByName_eq_cons (x : String × Val) (xs : List (String × Val))
    (h : ∀ y ∈ xs, strLt x.1 y.1 = true) : insertByName x xs = x :: xs := by
  cases xs with
  | nil => rfl
  | cons y ys => rw [insertByName, if_pos (h y (List.mem_cons_self _ _))]

/-- Sorting a row already sorted by name leaves it unchanged. -/
theorem sortByName_eq_self (row : List (String × Val))
    (hs : row.Pairwise (fun a b => strLt a.1 b.1 = true)) : sortByName row = row := by
  induction row with
  | nil => rfl
  | cons x xs ih =>
    rw [sortByName, ih (List.pairwise_cons.mp hs).2]
    exact insertByName_eq_cons x xs (List.pairwise_cons.mp hs).1

/-- Two rows over the same name list, with kind-homogeneous domains,
are equal as soon as their artifact-name parts coincide. -/
theorem rows_eq_of_parts_eq : ∀ (r₁ r₂ : Row) (doms : String → List Val),
    r₁.map Prod.fst = r₂.map Prod.fst →
    (∀ e ∈ r₁, e.2 ∈ doms e.1) →
    (∀ e ∈ r₂, e.2 ∈ doms e.1) →
    (∀ n ∈ r₁.map Prod.fst,
      (∀ v ∈ doms n, v.isBool = true) ∨ (∀ v ∈ doms n, v.isInt = true)) →
    r₁.map partOfEntry = r₂.map partOfEntry →
    r₁ = r₂ := by
  intro r₁
  induction r₁ with
  | nil =>
    intro r₂ doms hn _ _ _ _
    cases r₂ with
    | nil => rfl
    | cons f fs => simp at hn
  | cons e es ih =>
    intro r₂ doms hn h1 h2 hk hp
    cases r₂ with
    | nil => simp at hn
    | cons f fs =>
      rw [List.map_cons, List.map_cons, List.cons.injEq] at hn hp
      have hval : e.2 = f.2 := by
        have hpe := hp.1
        unfold partOfEntry at hpe
        rw [← hn.1] at hpe
        have henc := List.append_cancel_left hpe
        have hf2 : f.2 ∈ doms e.1 := by
          rw [hn.1]; exact h2 f (List.mem_cons_self _ _)
        have he2 : e.2 ∈ doms e.1 := h1 e (List.mem_cons_self _ _)
        rcases hk e.1 (by simp) with hb | hi
        · exact encodeVal_inj _ _ (Or.inl ⟨hb _ he2, hb _ hf2⟩) henc
        · exact encodeVal_inj _ _ (Or.inr ⟨hi _ he2, hi _ hf2⟩) henc
      have hef : e = f := Prod.ext hn.1 hval
      rw [hef]
      congr 1
      exact ih fs doms hn.2 (fun x hx => h1 x (List.mem_cons_of_mem _ hx))
        (fun x hx => h2 x (List.mem_cons_of_mem _ hx))
        (fun n hn' => hk n (List.mem_cons_of_mem _ hn')) hp.2

/-- C9.  `filename_for_row` is injective over the rows of one run: two
distinct rows over the run's fixed (name-sorted, duplicate-free) factor
set, each factor taking values from its declared kind-homogeneous
domain (booleans for a boolean factor, integers for an enum factor, as
`load_cfg` builds them), always receive different artifact names. -/
theorem C9_filename_for_row_injective :
    ∀ (r₁ r₂ : Row) (doms : String → List Val),
    r₁.map Prod.fst = r₂.map Prod.fst →
    (r₁.map Prod.fst).Pairwise (fun a b => strLt a b = true) →
    (∀ e ∈ r₁, e.1 ≠ "" ∧ e.2 ∈ doms e.1) →
    (∀ e ∈ r₂, e.1 ≠ "" ∧ e.2 ∈ doms e.1) →
    (∀ n ∈ r₁.map Prod.fst,
      (∀ v ∈ doms n, v.isBool = true) ∨ (∀ v ∈ doms n, v.isInt = true)) →
    r₁ ≠ r₂ →
    filename_for_row r₁ ≠ filename_for_row r₂ := by
  intro r₁ r₂ doms hn hsort he1 he2 hk hne heq
  apply hne
  have hdata : "run_".data ++ joinUnderscore (partsOfRow r₁) ++ ".txt".data
      = "run_".data ++ joinUnderscore (partsOfRow r₂) ++ ".txt".data :=
    congrArg String.data heq
  have hJ : joinUnderscore (partsOfRow r₁) = joinUnderscore (partsOfRow r₂) :=
    List.append_cancel_left (List.append_cancel_right hdata)
  have hsort₂ : (r₂.map Prod.fst).Pairwise (fun a b => strLt a b = true) := hn ▸ hsort
  have hsp₁ : sortByName r₁ = r₁ :=
    sortByName_eq_self r₁ (by rw [List.pairwise_map] at hsort; exact hsort)
  have hsp₂ : sortByName r₂ = r₂ :=
    sortByName_eq_self r₂ (by rw [List.pairwise_map] at hsort₂; exact hsort₂)
  unfold partsOfRow at hJ
  rw [hsp₁, hsp₂] at hJ
  have hk₂ : ∀ n ∈ r₂.map Prod.fst,
      (∀ v ∈ doms n, v.isBool = true) ∨ (∀ v ∈ doms n, v.isInt = true) := hn ▸ hk
  have hshape : ∀ (r : Row), (∀ e ∈ r, e.1 ≠ "" ∧ e.2 ∈ doms e.1) →
      (∀ n ∈ r.map Prod.fst,
        (∀ v ∈ doms n, v.isBool = true) ∨ (∀ v ∈ doms n, v.isInt = true)) →
      ∀ p ∈ r.map partOfEntry, ∃ c t, p = c :: t ∧ t ≠ [] ∧ '_' ∉ t := by
    intro r hr hkr p hp
    obtain ⟨e, hmem, rfl⟩ := List.mem_map.mp hp
    obtain ⟨hname, hdom⟩ := hr e hmem
    have hkind : e.2.isBool = true ∨ e.2.isInt = true := by
      rcases hkr e.1 (List.mem_map_of_mem Prod.fst hmem) with hb | hi
      · exact Or.inl (hb _ hdom)
      · exact Or.inr (hi _ hdom)
    obtain ⟨hnen, hfree⟩ := encodeVal_shape e.2 hkind
    cases hd : e.1.data with
    | nil =>
      exact absurd (show e.1 = "" from String.ext (by rw [hd])) hname
    | cons c cs =>
      refine ⟨c.toUpper, encodeVal e.2, ?_, hnen, hfree⟩
      unfold partOfEntry
      rw [hd]
      rfl
  have hlen : (r₁.map partOfEntry).length = (r₂.map partOfEntry).length := by
    rw [List.length_map, List.length_map, ← List.length_map r₁ Prod.fst, hn, List.length_map]
  have hparts := joinUnderscore_inj _ _ (hshape r₁ he1 hk) (hshape r₂ he2 hk₂) hlen hJ
  exact rows_eq_of_parts_eq r₁ r₂ doms hn (fun e he => (he1 e he).2)
    (fun e he => (he2 e he).2) hk hparts

/-- C9, witness: two concrete distinct rows over the factor set
`{flag : Bool, size : {3,4}}` get distinct artifact names. -/
theorem C9_filename_for_row_injective_witness :
    filename_for_row [("flag", Val.bool true), ("size", Val.int 3)] ≠
      filename_for_row [("flag", Val.bool true), ("size", Val.int 4)] :=
  C9_filename_for_row_injective _ _
    (fun n => if n = "size" then [Val.int 3, Val.int 4] else [Val.bool false, Val.bool true])
    (by decide) (by decide) (by decide) (by decide) (by decide) (by decide)

/-- The filtered step-recording never introduces the sentinel. -/
theorem appendStepFiltered_no_idle (stepVar : String) (cur : List (String × String))
    (actions : List String) (h : "idle" ∉ actions) :
    "idle" ∉ appendStepFiltered stepVar cur actions := by
  unfold appendStepFiltered
  cases cur.lookup stepVar with
  | none => exact h
  | some v =>
    dsimp only
    split
    · rename_i hv
      intro hm
      rcases List.mem_append.mp hm with h1 | h2
      · exact h h1
      · exact hv (List.mem_singleton.mp h2).symm
    · exact h

/-- The `trace_to_test_line` loop never introduces the sentinel. -/
theorem trace_loop_no_idle (stepVar : String) (endFlag : Option String)
    (lines : List (List Char)) (st : TLState) (h : "idle" ∉ st.actions) :
    "idle" ∉ (trace_loop stepVar endFlag lines st).actions := by
  induction lines generalizing st with
  | nil => exact h
  | cons ln rest ih =>
    rw [trace_loop]
    split
    · exact h
    · split
      · cases hp : st.pending with
        | some pend =>
          simp only []
          split
          · exact appendStepFiltered_no_idle _ _ _ h
          · exact ih _ (appendStepFiltered_no_idle _ _ _ h)
        | none => exact ih _ h
      · split
        · split
          · exact ih _ h
          · exact ih _ h
        · exact ih _ h

/-- C8, counterexample.  The claim says step-sequence extraction never
lets the sentinel `"idle"` into the returned action list.  That holds
for the list built by `trace_to_test_line`, but `extract_steps` — the
step-sequence extraction used to write trace artifacts (`save_steps`) —
appends every normalised step value with no sentinel filter: on a trace
whose only state has `step = idle` it returns `["idle"]`. -/
theorem C8_counterexample :
    extract_steps "-> State: 1.1 <-\n  step = idle" cfg0 = ["idle"] ∧
    "idle" ∈ extract_steps "-> State: 1.1 <-\n  step = idle" cfg0 ∧
    trace_actions "-> State: 1.1 <-\n  step = idle" cfg0 = [] := by
  decide

/-- C8, amended.  The action list from which `trace_to_test_line`
builds its test line appends, for each committed state, the step
variable's normalised value except the sentinel `"idle"`, which never
appears in it; `extract_steps`, by contrast, performs no sentinel
filtering. -/
theorem C8_amended :
    ∀ (stdout : String) (cfg : Cfg), "idle" ∉ trace_actions stdout cfg := by
  intro stdout cfg
  unfold trace_actions
  dsimp only
  have hloop := trace_loop_no_idle cfg.step_var cfg.endFlag (pySplitlines stdout.data)
    ⟨[], [], none, false⟩ (by simp)
  split
  · exact hloop
  · split
    · exact appendStepFiltered_no_idle _ _ _ hloop
    · exact hloop

/-- C8, witness: the sentinel is absent from the action list of a
concrete trace that contains an idle step. -/
theorem C8_amended_witness :
    "idle" ∉ trace_actions "-> State: 1.1 <-\n  step = idle\n-> State: 1.2 <-\n  step = add"
      cfg0 :=
  C8_amended _ _

/-- C5.  Coverage preservation and determinism of the greedy
minimizer: restricted to the feasible pairs, the tests selected by
`minimize_tests_greedy` cover exactly the pairs the full discovered
test list covers; every selected test is a discovered test; and the
candidate scan picks the first (earliest in test-list order) not-yet-
selected test attaining the maximum positive gain, so ties go to the
earlier test.  (`minimize_tests_greedy` is a Lean function of its two
arguments, so the selection is deterministic by construction.) -/
theorem C5_minimize_coverage :
    (∀ (tests : List Row) (feas : List Pp) (p : Pp), p ∈ feas →
      ((∃ t ∈ minimize_tests_greedy tests feas, row_satisfies t p = true) ↔
        (∃ t ∈ tests, row_satisfies t p = true)))
    ∧ (∀ (tests : List Row) (feas : List Pp), ∀ t ∈ minimize_tests_greedy tests feas, t ∈ tests)
    ∧ (∀ (rem : List Pp) (used : List Nat) (cov : List (List Pp)) (i : Nat) (gain : List Pp),
        bestScan rem used cov 0 (none, []) = (some i, gain) →
        i < cov.length ∧ i ∉ used ∧ gain = gainAt rem (cov.getD i []) ∧ 0 < gain.length ∧
        (∀ j, j < i → j ∉ used → gainLen rem cov j < gain.length) ∧
        (∀ j, i < j → j < cov.length → j ∉ used → gainLen rem cov j ≤ gain.length)) :=
  ⟨minimize_coverage, minimize_chosen_mem, fun _ _ _ _ _ h => bestScan_some h⟩

/-- C5, witness: the coverage-preservation equivalence at a concrete
one-test instance. -/
theorem C5_minimize_coverage_witness :
    (∃ t ∈ minimize_tests_greedy [[("a", Val.bool true), ("b", Val.bool true)]]
        [(("a", Val.bool true), ("b", Val.bool true))],
      row_satisfies t (("a", Val.bool true), ("b", Val.bool true)) = true) ↔
      (∃ t ∈ [[("a", Val.bool true), ("b", Val.bool true)]],
        row_satisfies t (("a", Val.bool true), ("b", Val.bool true)) = true) :=
  C5_minimize_coverage.1 _ _ _ (by decide)

/-- One engine step preserves distinctness of retained row keys and
the inclusion of retained keys in `seen_rows`. -/
theorem genStep_keys {cfg : Cfg} {ro : Row → Bool × String} {po : Pp → Bool} {pick : Pp}
    {st st' : GenState} (h : genStep cfg ro po pick st = some st')
    (h1 : (st.tests.map row_key).Nodup) (h2 : ∀ t ∈ st.tests, row_key t ∈ st.seen_rows) :
    (st'.tests.map row_key).Nodup ∧ ∀ t ∈ st'.tests, row_key t ∈ st'.seen_rows := by
  unfold genStep at h
  split at h
  · split at h
    · simp at h
    · rename_i row _
      dsimp only at h
      split at h
      · rw [Option.some.injEq] at h
        subst h
        exact ⟨h1, h2⟩
      · split at h
        · split at h
          · rw [Option.some.injEq] at h
            subst h
            exact ⟨h1, h2⟩
          · rw [Option.some.injEq] at h
            subst h
            exact ⟨h1, h2⟩
        · split at h
          · rw [Option.some.injEq] at h
            subst h
            exact ⟨h1, h2⟩
          · rename_i hnew
            rw [Option.some.injEq] at h
            subst h
            constructor
            · dsimp only
              rw [List.map_append]
              rw [List.nodup_append]
              refine ⟨h1, by simp, ?_⟩
              intro k hk hk'
              simp only [List.map_cons, List.map_nil, List.mem_singleton] at hk'
              obtain ⟨t, ht, rfl⟩ := List.mem_map.mp hk
              exact hnew (hk' ▸ h2 t ht)
            · intro t ht
              dsimp only at ht ⊢
              rcases List.mem_append.mp ht with ht | ht
              · exact List.mem_append_left _ (h2 t ht)
              · rw [List.mem_singleton.mp ht]
                exact List.mem_append_right _ (List.mem_singleton_self _)
  · simp at h

/-- The discovery loop preserves the key invariant. -/
theorem genLoop_keys {cfg : Cfg} {ro : Row → Bool × String} {po : Pp → Bool} :
    ∀ (picks : List Pp) (st st' : GenState), genLoop cfg ro po picks st = some st' →
    (st.tests.map row_key).Nodup → (∀ t ∈ st.tests, row_key t ∈ st.seen_rows) →
    (st'.tests.map row_key).Nodup := by
  intro picks
  induction picks with
  | nil =>
    intro st st' h h1 h2
    rw [genLoop] at h
    split at h
    · rw [Option.some.injEq] at h
      subst h
      exact h1
    · simp at h
  | cons pick picks ih =>
    intro st st' h h1 h2
    rw [genLoop] at h
    split at h
    · rw [Option.some.injEq] at h
      subst h
      exact h1
    · split at h
      · rename_i st1 hstep
        obtain ⟨g1, g2⟩ := genStep_keys hstep h1 h2
        exact ih st1 st' h g1 g2
      · simp at h

/-- C7.  RowKeys are pairwise distinct among the tests `gen_tests`
retains (and already among all discovered tests before minimization);
and when a feasible candidate row's key is already in `seen_rows`, the
step still retires from `todo` every pair the row satisfies but
appends no test, writes no trace artifact, records no test line, and
touches neither `seen_rows` nor the pair sets. -/
theorem C7_no_duplicate_rowkeys :
    (∀ (cfg : Cfg) (ro : Row → Bool × String) (po : Pp → Bool) (picks : List Pp)
        (res : GenResult), gen_tests cfg ro po picks = some res →
      (res.tests.map row_key).Nodup ∧ (res.final.tests.map row_key).Nodup)
    ∧ (∀ (cfg : Cfg) (ro : Row → Bool × String) (po : Pp → Bool) (pick : Pp)
        (st : GenState) (row : Row), pick ∈ st.todo →
        build_row_from_pair pick cfg.factors = some row →
        row_key row ∉ st.infeasible_rows →
        (ro row).1 = true →
        row_key row ∈ st.seen_rows →
        genStep cfg ro po pick st = some { st with
          rowQueries := st.rowQueries ++ [row],
          todo := st.todo.filter (fun p => !(row_satisfies row p)) }) := by
  constructor
  · intro cfg ro po picks res h
    unfold gen_tests at h
    dsimp only at h
    split at h
    · rename_i st hloop
      rw [Option.some.injEq] at h
      subst h
      have hnodup := genLoop_keys picks _ st hloop (by simp) (by simp)
      exact ⟨minimize_nodup_keys _ _ hnodup, hnodup⟩
    · simp at h
  · intro cfg ro po pick st row hpick hbuild hkinf hro hseen
    unfold genStep
    rw [if_pos hpick, hbuild]
    dsimp only
    rw [if_neg hkinf]
    rw [if_neg (by rw [hro]; simp)]
    rw [if_pos hseen]

/-- C7, witness: a concrete four-pick run retains tests with pairwise
distinct row keys, and a concrete duplicate discovery only retires the
covered pair. -/
theorem C7_no_duplicate_rowkeys_witness :
    ((resC7.tests.map row_key).Nodup ∧ (resC7.final.tests.map row_key).Nodup)
    ∧ genStep cfgC7 roC7 poC7 (("a", Val.bool true), ("b", Val.bool true)) stDupC7 =
        some { stDupC7 with
          rowQueries := stDupC7.rowQueries ++ [[("a", Val.bool true), ("b", Val.bool true)]],
          todo := stDupC7.todo.filter
            (fun p => !(row_satisfies [("a", Val.bool true), ("b", Val.bool true)] p)) } :=
  ⟨C7_no_duplicate_rowkeys.1 cfgC7 roC7 poC7 picksC7 resC7 (by decide),
   C7_no_duplicate_rowkeys.2 cfgC7 roC7 poC7 _ stDupC7 _ (by decide) (by decide) (by decide)
     rfl (by decide)⟩

/-- Membership in a set after `addPp`. -/
theorem mem_addPp {l : List Pp} {p x : Pp} : x ∈ addPp l p ↔ x ∈ l ∨ x = p := by
  unfold addPp
  split
  · rename_i hin
    constructor
    · exact Or.inl
    · intro h
      rcases h with h | rfl
      · exact h
      · exact hin
  · rw [List.mem_append, List.mem_singleton]

/-- The diagnosis only ever removes pairs from `todo`. -/
theorem diagnose_todo_subset (po : Pp → Bool) :
    ∀ (rps todo inf qs : List Pp) (found : Bool) (x : Pp),
    x ∈ (diagnose po rps todo inf qs found).todo → x ∈ todo := by
  intro rps
  induction rps with
  | nil => intro todo inf qs found x h; exact h
  | cons q rest ih =>
    intro todo inf qs found x h
    by_cases hqt : q ∈ todo
    · by_cases hqo : po q = true
      · rw [diagnose, if_pos hqt, if_pos hqo] at h
        exact ih _ _ _ _ x h
      · rw [diagnose, if_pos hqt, if_neg hqo] at h
        exact List.mem_of_mem_erase (ih _ _ _ _ x h)
    · rw [diagnose, if_neg hqt] at h
      exact ih _ _ _ _ x h

/-- The diagnosis only ever adds pairs to `infeasible_pairs`. -/
theorem diagnose_inf_mono (po : Pp → Bool) :
    ∀ (rps todo inf qs : List Pp) (found : Bool) (x : Pp),
    x ∈ inf → x ∈ (diagnose po rps todo inf qs found).infeasible := by
  intro rps
  induction rps with
  | nil => intro todo inf qs found x h; exact h
  | cons q rest ih =>
    intro todo inf qs found x h
    by_cases hqt : q ∈ todo
    · by_cases hqo : po q = true
      · rw [diagnose, if_pos hqt, if_pos hqo]
        exact ih _ _ _ _ x h
      · rw [diagnose, if_pos hqt, if_neg hqo]
        exact ih _ _ _ _ x (mem_addPp.mpr (Or.inl h))
    · rw [diagnose, if_neg hqt]
      exact ih _ _ _ _ x h

/-- The diagnosis preserves the query log. -/
theorem diagnose_queries_mono (po : Pp → Bool) :
    ∀ (rps todo inf qs : List Pp) (found : Bool) (x : Pp),
    x ∈ qs → x ∈ (diagnose po rps todo inf qs found).queries := by
  intro rps
  induction rps with
  | nil => intro todo inf qs found x h; exact h
  | cons q rest ih =>
    intro todo inf qs found x h
    by_cases hqt : q ∈ todo
    · by_cases hqo : po q = true
      · rw [diagnose, if_pos hqt, if_pos hqo]
        exact ih _ _ _ _ x (List.mem_append_left _ h)
      · rw [diagnose, if_pos hqt, if_neg hqo]
        exact ih _ _ _ _ x (List.mem_append_left _ h)
    · rw [diagnose, if_neg hqt]
      exact ih _ _ _ _ x h

/-- Every row pair still in `todo` that the pair oracle rejects is
added to `infeasible_pairs` and removed from `todo` — all of them, not
only the first one found. -/
theorem diagnose_handles_all (po : Pp → Bool) :
    ∀ (rps todo inf qs : List Pp) (found : Bool) (p : Pp),
    todo.Nodup → p ∈ rps → p ∈ todo → po p = false →
    p ∈ (diagnose po rps todo inf qs found).infeasible ∧
    p ∉ (diagnose po rps todo inf qs found).todo := by
  intro rps
  induction rps with
  | nil =>
    intro todo inf qs found p _ hp
    exact absurd hp (List.not_mem_nil p)
  | cons q rest ih =>
    intro todo inf qs found p hnd hp hpt hpo
    by_cases hpq : q = p
    · subst hpq
      rw [diagnose, if_pos hpt, if_neg (by rw [hpo]; simp)]
      constructor
      · exact diagnose_inf_mono po _ _ _ _ _ q (mem_addPp.mpr (Or.inr rfl))
      · intro hmem
        exact hnd.not_mem_erase (diagnose_todo_subset po _ _ _ _ _ q hmem)
    · have hp' : p ∈ rest := by
        rcases List.mem_cons.mp hp with he | h
        · exact absurd he.symm hpq
        · exact h
      by_cases hqt : q ∈ todo
      · by_cases hqo : po q = true
        · rw [diagnose, if_pos hqt, if_pos hqo]
          exact ih _ _ _ _ p hnd hp' hpt hpo
        · rw [diagnose, if_pos hqt, if_neg hqo]
          exact ih _ _ _ _ p (hnd.erase q) hp'
            ((List.mem_erase_of_ne (fun he => hpq he.symm)).mpr hpt) hpo
      · rw [diagnose, if_neg hqt]
        exact ih _ _ _ _ p hnd hp' hpt hpo

/-- Every row pair still in `todo` is sent to the pair oracle. -/
theorem diagnose_queries_all (po : Pp → Bool) :
    ∀ (rps todo inf qs : List Pp) (found : Bool) (p : Pp),
    todo.Nodup → p ∈ rps → p ∈ todo →
    p ∈ (diagnose po rps todo inf qs found).queries := by
  intro rps
  induction rps with
  | nil =>
    intro todo inf qs found p _ hp
    exact absurd hp (List.not_mem_nil p)
  | cons q rest ih =>
    intro todo inf qs found p hnd hp hpt
    by_cases hpq : q = p
    · subst hpq
      by_cases hqo : po q = true
      · rw [diagnose, if_pos hpt, if_pos hqo]
        exact diagnose_queries_mono po _ _ _ _ _ q
          (List.mem_append_right _ (List.mem_singleton_self _))
      · rw [diagnose, if_pos hpt, if_neg hqo]
        exact diagnose_queries_mono po _ _ _ _ _ q
          (List.mem_append_right _ (List.mem_singleton_self _))
    · have hp' : p ∈ rest := by
        rcases List.mem_cons.mp hp with he | h
        · exact absurd he.symm hpq
        · exact h
      by_cases hqt : q ∈ todo
      · by_cases hqo : po q = true
        · rw [diagnose, if_pos hqt, if_pos hqo]
          exact ih _ _ _ _ p hnd hp' hpt
        · rw [diagnose, if_pos hqt, if_neg hqo]
          exact ih _ _ _ _ p (hnd.erase q) hp'
            ((List.mem_erase_of_ne (fun he => hpq he.symm)).mpr hpt)
      · rw [diagnose, if_neg hqt]
        exact ih _ _ _ _ p hnd hp' hpt

/-- When no row pair in `todo` is individually infeasible, the
diagnosis leaves `todo` and `infeasible_pairs` unchanged and reports no
find. -/
theorem diagnose_all_feasible (po : Pp → Bool) :
    ∀ (rps todo inf qs : List Pp),
    (∀ p ∈ rps, p ∈ todo → po p = true) →
    (diagnose po rps todo inf qs false).todo = todo ∧
    (diagnose po rps todo inf qs false).infeasible = inf ∧
    (diagnose po rps todo inf qs false).found = false := by
  intro rps
  induction rps with
  | nil => intro todo inf qs _; exact ⟨rfl, rfl, rfl⟩
  | cons q rest ih =>
    intro todo inf qs h
    by_cases hqt : q ∈ todo
    · rw [diagnose, if_pos hqt, if_pos (h q (List.mem_cons_self _ _) hqt)]
      exact ih _ _ _ (fun p hp hpt => h p (List.mem_cons_of_mem _ hp) hpt)
    · rw [diagnose, if_neg hqt]
      exact ih _ _ _ (fun p hp hpt => h p (List.mem_cons_of_mem _ hp) hpt)

/-- C4, counterexample.  The claim says the diagnosis after an
infeasible full row queries every row pair still open and adds every
pair found infeasible, not only the first, and records the RowKey when
none is infeasible.  The IPO runner's diagnosis
(`_find_one_infeasible_pair_in_row`) does neither: on the row
`{a:0,b:0,c:0}` with both `(a:0,b:0)` and `(a:0,c:0)` oracle-infeasible
it adds and queries only the first, leaving `(a:0,c:0)` unqueried and
unrecorded; and when no pair is individually infeasible it raises an
error instead of recording the row key. -/
theorem C4_counterexample :
    find_one_infeasible_pair_in_row poC4 rowPairsC4 [] [] [] =
      .ok ⟨(("a", Val.int 0), ("b", Val.int 0)),
        [(("a", Val.int 0), ("b", Val.int 0))], [],
        [(("a", Val.int 0), ("b", Val.int 0))]⟩ ∧
    poC4 (("a", Val.int 0), ("c", Val.int 0)) = false ∧
    (("a", Val.int 0), ("c", Val.int 0)) ∈ rowPairsC4 ∧
    (∀ r : FindOneResult,
      find_one_infeasible_pair_in_row poC4 rowPairsC4 [] [] [] = .ok r →
      (("a", Val.int 0), ("c", Val.int 0)) ∉ r.infeasible ∧
      (("a", Val.int 0), ("c", Val.int 0)) ∉ r.queries) ∧
    (find_one_infeasible_pair_in_row (fun _ => true) rowPairsC4 [] [] []).isOk = false := by
  refine ⟨by decide, by decide, by decide, ?_, by decide⟩
  intro r h
  have hres : find_one_infeasible_pair_in_row poC4 rowPairsC4 [] [] [] =
      .ok ⟨(("a", Val.int 0), ("b", Val.int 0)),
        [(("a", Val.int 0), ("b", Val.int 0))], [],
        [(("a", Val.int 0), ("b", Val.int 0))]⟩ := by decide
  rw [hres, Except.ok.injEq] at h
  subst h
  exact ⟨by decide, by decide⟩

/-- C4, amended.  In the default-fill engine (`gen_tests`), the claim
holds: the diagnosis queries the pair oracle on every row pair still in
`todo`, adds every pair found infeasible to `infeasible_pairs` and
removes it from `todo` (not only the first); when no pair is
individually infeasible, the step records the row's RowKey in
`infeasible_rows`, and a later step whose candidate row has a recorded
key drops its pick from `todo` without issuing any oracle query.  In
the IPO engine, by contrast, `_find_one_infeasible_pair_in_row` stops
at the first infeasible pair and raises instead of recording a RowKey
(see the counterexample). -/
theorem C4_diagnosis_amended :
    (∀ (po : Pp → Bool) (rps todo inf qs : List Pp) (found : Bool) (p : Pp),
      todo.Nodup → p ∈ rps → p ∈ todo → po p = false →
      p ∈ (diagnose po rps todo inf qs found).infeasible ∧
      p ∉ (diagnose po rps todo inf qs found).todo)
    ∧ (∀ (po : Pp → Bool) (rps todo inf qs : List Pp) (found : Bool) (p : Pp),
      todo.Nodup → p ∈ rps → p ∈ todo →
      p ∈ (diagnose po rps todo inf qs found).queries)
    ∧ (∀ (cfg : Cfg) (ro : Row → Bool × String) (po : Pp → Bool) (pick : Pp)
        (st : GenState) (row : Row), pick ∈ st.todo →
        build_row_from_pair pick cfg.factors = some row →
        row_key row ∉ st.infeasible_rows →
        (ro row).1 = false →
        (∀ p ∈ row_pairs cfg.factors row, p ∈ st.todo → po p = true) →
        genStep cfg ro po pick st = some { st with
          rowQueries := st.rowQueries ++ [row],
          pairQueries := (diagnose po (row_pairs cfg.factors row) st.todo
            st.infeasible_pairs st.pairQueries false).queries,
          infeasible_rows := st.infeasible_rows ++ [row_key row] })
    ∧ (∀ (cfg : Cfg) (ro : Row → Bool × String) (po : Pp → Bool) (pick : Pp)
        (st : GenState) (row : Row), pick ∈ st.todo →
        build_row_from_pair pick cfg.factors = some row →
        row_key row ∈ st.infeasible_rows →
        genStep cfg ro po pick st = some { st with todo := st.todo.erase pick }) := by
  refine ⟨diagnose_handles_all, diagnose_queries_all, ?_, ?_⟩
  · intro cfg ro po pick st row hpick hbuild hkinf hro hfeas
    obtain ⟨hd1, hd2, hd3⟩ := diagnose_all_feasible po (row_pairs cfg.factors row)
      st.todo st.infeasible_pairs st.pairQueries hfeas
    unfold genStep
    rw [if_pos hpick, hbuild]
    dsimp only
    rw [if_neg hkinf, if_pos hro]
    rw [if_neg (by rw [hd3]; simp)]
    rw [hd1, hd2]
  · intro cfg ro po pick st row hpick hbuild hk
    unfold genStep
    rw [if_pos hpick, hbuild]
    dsimp only
    rw [if_pos hk]

/-- C4, witness for the amended theorem: the diagnosis on a concrete
two-infeasible-pair row classifies both pairs, the feasible pair is
still queried, and a recorded row key suppresses the oracle on a later
encounter. -/
theorem C4_diagnosis_amended_witness :
    ((("a", Val.int 0), ("b", Val.int 0)) ∈
        (diagnose poC4 rowPairsC4 rowPairsC4 [] [] false).infeasible ∧
      (("a", Val.int 0), ("b", Val.int 0)) ∉
        (diagnose poC4 rowPairsC4 rowPairsC4 [] [] false).todo) ∧
    ((("a", Val.int 0), ("c", Val.int 0)) ∈
        (diagnose poC4 rowPairsC4 rowPairsC4 [] [] false).infeasible ∧
      (("a", Val.int 0), ("c", Val.int 0)) ∉
        (diagnose poC4 rowPairsC4 rowPairsC4 [] [] false).todo) ∧
    (("b", Val.int 0), ("c", Val.int 0)) ∈
      (diagnose poC4 rowPairsC4 rowPairsC4 [] [] false).queries ∧
    genStep cfgC7 roC7 poC7 (("a", Val.bool true), ("b", Val.bool true))
        { stDupC7 with
          seen_rows := [],
          infeasible_rows := [row_key [("a", Val.bool true), ("b", Val.bool true)]] } =
      some { stDupC7 with
        seen_rows := [],
        infeasible_rows := [row_key [("a", Val.bool true), ("b", Val.bool true)]],
        todo := stDupC7.todo.erase (("a", Val.bool true), ("b", Val.bool true)) } :=
  ⟨C4_diagnosis_amended.1 poC4 rowPairsC4 rowPairsC4 [] [] false _ (by decide) (by decide)
      (by decide) (by decide),
   C4_diagnosis_amended.1 poC4 rowPairsC4 rowPairsC4 [] [] false _ (by decide) (by decide)
      (by decide) (by decide),
   C4_diagnosis_amended.2.1 poC4 rowPairsC4 rowPairsC4 [] [] false _ (by decide) (by decide)
      (by decide),
   C4_diagnosis_amended.2.2.2 cfgC7 roC7 poC7 _ _ [("a", Val.bool true), ("b", Val.bool true)]
      (by decide) (by decide) (by decide)⟩

/-- C6, counterexample.  The claim says `negate_ltl phi` denotes the
logical negation of `phi` for every input string.  It does not: on the
formula `!(a) & !(b)` (which starts with `!(` and ends with `)` without
being a negation) `negate_ltl` returns its input unchanged, so the
string submitted to the verifier denotes the formula itself — which is
true under the valuation sending every atom to false, while its
negation is false there. -/
theorem C6_counterexample :
    negate_ltl (printP phiC6) = printP phiC6 ∧
    evalP (fun _ => false) phiC6 = true ∧
    evalP (fun _ => false) (PForm.neg phiC6) = false := by
  refine ⟨by decide, rfl, rfl⟩

/-- C6, amended.  `negate_ltl` returns the syntactic negation
`"!(" ++ stripped input ++ ")"` — which denotes the logical negation —
for every input that is not already of the shape `!(...)`; an input of
that shape is returned unchanged (submitted as-is). -/
theorem C6_amended :
    (∀ s : String,
        ("!(".data.isPrefixOf (pyStrip s).data &&
          ")".data.isSuffixOf (pyStrip s).data) = false →
        negate_ltl s = "!(" ++ pyStrip s ++ ")")
    ∧ (∀ φ : PForm, printP (PForm.neg φ) = "!(" ++ printP φ ++ ")")
    ∧ ∀ (v : String → Bool) (φ : PForm), evalP v (PForm.neg φ) = !(evalP v φ) := by
  refine ⟨?_, fun φ => rfl, fun v φ => rfl⟩
  intro s h
  simp [negate_ltl, h]

/-- C6, witness for the amended theorem at a concrete non-wrapped
formula. -/
theorem C6_amended_witness :
    negate_ltl "F(end_of_test)" = "!(F(end_of_test))" ∧
    printP (PForm.neg (PForm.atom "p")) = "!(p)" ∧
    evalP (fun _ => true) (PForm.neg (PForm.atom "p")) =
      !(evalP (fun _ => true) (PForm.atom "p")) := by
  refine ⟨?_, C6_amended.2.1 _, C6_amended.2.2 _ _⟩
  exact (C6_amended.1 "F(end_of_test)" (by decide)).trans (by decide)

/-- Membership in the modelled set union. -/
theorem mem_unionPp {x : Pp} : ∀ (ps l : List Pp), x ∈ unionPp l ps ↔ x ∈ l ∨ x ∈ ps := by
  intro ps
  induction ps with
  | nil => intro l; simp [unionPp]
  | cons p rest ih =>
    intro l
    simp only [unionPp, List.foldl_cons]
    rw [show rest.foldl addPp (addPp l p) = unionPp (addPp l p) rest from rfl]
    rw [ih, mem_addPp]
    simp only [List.mem_cons]
    tauto

/-- Fold invariant of the phase-2 candidate scan: any selected row has a
strictly positive gain (the accumulator's gain component is a `Nat`, so
`gain > best.2` forces `0 < gain`). -/
theorem bestRowGo (uncovered : List Pp) :
    ∀ (cands : List Row) (acc : Option Row × Nat),
      (∀ r, acc.1 = some r → 0 < ((pairs_for_row r).filter (fun p => p ∈ uncovered)).length) →
      ∀ r, (cands.foldl (fun (best : Option Row × Nat) cand =>
          let gain := ((pairs_for_row cand).filter (fun p => p ∈ uncovered)).length
          if gain > best.2 then (some cand, gain) else best) acc).1 = some r →
        0 < ((pairs_for_row r).filter (fun p => p ∈ uncovered)).length := by
  intro cands
  induction cands with
  | nil => intro acc hacc r h; exact hacc r h
  | cons c cs ih =>
    intro acc hacc r h
    simp only [List.foldl_cons] at h
    refine ih _ ?_ r h
    intro r' hr'
    split at hr'
    · rename_i hgt
      cases hr'
      exact Nat.lt_of_le_of_lt (Nat.zero_le _) hgt
    · exact hacc r' hr'

/-- A row returned by `twixBestRow` covers at least one uncovered pair. -/
theorem twixBestRow_pos {doms : String → List Val} {names : List String}
    {uncovered : List Pp} {best : Row} (h : twixBestRow doms names uncovered = some best) :
    0 < ((pairs_for_row best).filter (fun p => p ∈ uncovered)).length := by
  unfold twixBestRow at h
  exact bestRowGo uncovered _ (none, 0) (by intro r hr; cases hr) best h

/-- Adding a row whose pair set meets the uncovered set strictly shrinks
the uncovered set. -/
theorem uncovered_decrease {allP covered : List Pp} {best : Row}
    (hp : 0 < ((pairs_for_row best).filter
      (fun p => p ∈ allP.filter (fun q => q ∉ covered))).length) :
    (allP.filter (fun p => p ∉ unionPp covered (pairs_for_row best))).length <
      (allP.filter (fun p => p ∉ covered)).length := by
  obtain ⟨p, hpmem⟩ := List.exists_mem_of_ne_nil _ (List.length_pos.mp hp)
  rw [List.mem_filter] at hpmem
  obtain ⟨hpbest, hpunc⟩ := hpmem
  rw [decide_eq_true_iff, List.mem_filter, decide_eq_true_iff] at hpunc
  obtain ⟨hpall, hpcov⟩ := hpunc
  have hcomm : allP.filter (fun q => q ∉ unionPp covered (pairs_for_row best)) =
      (allP.filter (fun q => q ∉ covered)).filter
        (fun q => q ∉ unionPp covered (pairs_for_row best)) := by
    rw [List.filter_filter]
    refine (List.filter_congr ?_).symm
    intro a _
    by_cases h1 : a ∈ unionPp covered (pairs_for_row best)
    · simp [h1]
    · have h2 : a ∉ covered := fun hc => h1 (mem_unionPp _ _ |>.mpr (Or.inl hc))
      simp [h1, h2]
  rw [hcomm]
  have hlt : ((allP.filter (fun q => q ∉ covered)).filter
      (fun q => q ∉ unionPp covered (pairs_for_row best))).length <
      (allP.filter (fun q => q ∉ covered)).length := by
    refine List.length_filter_lt_length_iff_exists.mpr ⟨p, ?_, ?_⟩
    · rw [List.mem_filter]
      exact ⟨hpall, by simpa using hpcov⟩
    · simp only [decide_eq_true_iff, not_not]
      exact mem_unionPp _ _ |>.mpr (Or.inr hpbest)
  exact hlt

/-- Fuel sufficiency for twix phase 2: with more fuel than uncovered
pairs, the loop always reaches one of its own exits. -/
theorem twixPhase2_ne_none (doms : String → List Val) (names : List String) (allP : List Pp) :
    ∀ (fuel : Nat) (rows : List Row) (covered : List Pp),
      (allP.filter (fun p => p ∉ covered)).length < fuel →
      twixPhase2 doms names allP fuel rows covered ≠ none := by
  intro fuel
  induction fuel with
  | zero => intro rows covered h; exact absurd h (Nat.not_lt_zero _)
  | succ n ih =>
    intro rows covered h
    rw [twixPhase2]
    by_cases hemp : (allP.filter (fun p => p ∉ covered)).isEmpty
    · rw [if_pos hemp]; simp
    · rw [if_neg hemp]
      cases hbr : twixBestRow doms names (allP.filter (fun p => p ∉ covered)) with
      | none => simp
      | some best =>
        apply ih
        have hd := @uncovered_decrease allP covered best (twixBestRow_pos hbr)
        omega

/-- The factor-count guard: a name list of length other than three takes
the catch-all branch of `generate_pairwise_twix`. -/
theorem genTwix_not3 (facs : List Factor) (h : facs.length ≠ 3) :
    generate_pairwise_twix facs =
      .error "generate_pairwise_twix currently assumes exactly 3 factors (A,B,C)." := by
  have hlen : (facs.map Factor.name).length ≠ 3 := by
    rw [List.length_map]; exact h
  unfold generate_pairwise_twix
  rcases hm : facs.map Factor.name with _ | ⟨a, _ | ⟨b, _ | ⟨c, _ | ⟨d, t⟩⟩⟩⟩
  · rfl
  · rfl
  · rfl
  · rw [hm] at hlen; simp at hlen
  · rfl

/-- C10: with a factor count other than three, `generate_pairwise_twix`
raises its `ValueError`, and `run_ipo_with_oracle` — which calls the
generator before any oracle interaction — fails with that error while
its oracle-facing state is still the empty initial one (no row query,
no pair query, no classification recorded); with exactly three factors
(non-empty domains), `generate_pairwise_twix` returns normally. -/
theorem C10_twix_factor_guard :
    (∀ facs : List Factor, facs.length ≠ 3 →
      generate_pairwise_twix facs =
        .error "generate_pairwise_twix currently assumes exactly 3 factors (A,B,C).") ∧
    (∀ (facs : List Factor) (roI : Row → Bool) (po : Pp → Bool) (fuel : Nat),
      facs.length ≠ 3 →
      run_ipo_with_oracle roI po facs fuel =
        ⟨some "generate_pairwise_twix currently assumes exactly 3 factors (A,B,C).",
         [], [], ipoInit⟩) ∧
    (∀ facs : List Factor, facs.length = 3 → (∀ f ∈ facs, f.values ≠ []) →
      ∃ rows, generate_pairwise_twix facs = .ok rows) := by
  refine ⟨genTwix_not3, ?_, ?_⟩
  · intro facs roI po fuel h
    unfold run_ipo_with_oracle
    rw [genTwix_not3 facs h]
  · intro facs h3 _
    have hm3 : (facs.map Factor.name).length = 3 := by rw [List.length_map]; exact h3
    obtain ⟨a, b, c, hm⟩ := List.length_eq_three.mp hm3
    unfold generate_pairwise_twix
    rw [hm]
    dsimp only
    cases hp2 : twixPhase2 (domOf facs) [a, b, c]
        (twixAllPairs (domOf facs) [a, b, c])
        ((twixAllPairs (domOf facs) [a, b, c]).length + 1)
        (twixPhase1 a b c (domOf facs)).1 (twixPhase1 a b c (domOf facs)).2 with
    | none =>
      exact absurd hp2 (twixPhase2_ne_none _ _ _ _ _ _
        (Nat.lt_succ_of_le (List.length_filter_le _ _)))
    | some rows => exact ⟨rows, rfl⟩

/-- Concrete check of the factor-count guard: two boolean factors raise
the `ValueError` and leave the runner's query logs empty; the three
boolean factors of `cfgC1` generate normally. -/
theorem C10_twix_factor_guard_witness :
    generate_pairwise_twix [⟨"a", [Val.bool false, Val.bool true], []⟩,
        ⟨"b", [Val.bool false, Val.bool true], []⟩] =
      .error "generate_pairwise_twix currently assumes exactly 3 factors (A,B,C)." ∧
    run_ipo_with_oracle (fun _ => true) (fun _ => true)
        [⟨"a", [Val.bool false, Val.bool true], []⟩,
         ⟨"b", [Val.bool false, Val.bool true], []⟩] 5 =
      ⟨some "generate_pairwise_twix currently assumes exactly 3 factors (A,B,C).",
       [], [], ipoInit⟩ ∧
    ∃ rows, generate_pairwise_twix cfgC1.factors = .ok rows :=
  ⟨C10_twix_factor_guard.1 _ (by decide),
   C10_twix_factor_guard.2.1 _ (fun _ => true) (fun _ => true) 5 (by decide),
   C10_twix_factor_guard.2.2 cfgC1.factors (by decide) (by decide)⟩

end CTD
